import Mathlib

/-!
Verification development for the company-name cleaning tool
(`src/company_name_cleaner_app.py`).

The normalizer `clean_company_name` and its helper `_smart_case` are embedded
as executable functions on `List Char` (strings are Python `str`; the model
restricts the `re` module's `\w`/`\s` classes and Python's `str.lower`,
`str.upper`, `str.capitalize`, `str.isupper` to their ASCII behaviour, which
is what every constant in the source uses).  The fuzzy grouper
`fuzzy_deduplicate` is embedded over an abstract similarity scorer, since
`rapidfuzz.fuzz.token_set_ratio` is an external library; a concrete
token-set similarity modelled from the spec is used for witnesses.
-/

set_option linter.unreachableTactic false

set_option linter.unusedTactic false

/-- ASCII model of the whitespace class `\s` used by the `re` module
(space, tab, newline, carriage return, vertical tab, form feed). -/
def isWs (c : Char) : Bool :=
  c = ' ' || c = '\t' || c = '\n' || c = '\r' || c = '\x0b' || c = '\x0c'

/-- ASCII model of Python's lower-to-upper character map (used by
`str.upper` and for the first character of `str.capitalize`). -/
def up1 : Char → Char
  | 'a' => 'A' | 'b' => 'B' | 'c' => 'C' | 'd' => 'D' | 'e' => 'E' | 'f' => 'F'
  | 'g' => 'G' | 'h' => 'H' | 'i' => 'I' | 'j' => 'J' | 'k' => 'K' | 'l' => 'L'
  | 'm' => 'M' | 'n' => 'N' | 'o' => 'O' | 'p' => 'P' | 'q' => 'Q' | 'r' => 'R'
  | 's' => 'S' | 't' => 'T' | 'u' => 'U' | 'v' => 'V' | 'w' => 'W' | 'x' => 'X'
  | 'y' => 'Y' | 'z' => 'Z' | c => c

/-- ASCII model of Python's upper-to-lower character map (used by
`str.lower` and for the tail of `str.capitalize`). -/
def lo1 : Char → Char
  | 'A' => 'a' | 'B' => 'b' | 'C' => 'c' | 'D' => 'd' | 'E' => 'e' | 'F' => 'f'
  | 'G' => 'g' | 'H' => 'h' | 'I' => 'i' | 'J' => 'j' | 'K' => 'k' | 'L' => 'l'
  | 'M' => 'm' | 'N' => 'n' | 'O' => 'o' | 'P' => 'p' | 'Q' => 'q' | 'R' => 'r'
  | 'S' => 's' | 'T' => 't' | 'U' => 'u' | 'V' => 'v' | 'W' => 'w' | 'X' => 'x'
  | 'Y' => 'y' | 'Z' => 'z' | c => c

/-- ASCII uppercase letter test. -/
def isUpA : Char → Bool
  | 'A' => true | 'B' => true | 'C' => true | 'D' => true | 'E' => true
  | 'F' => true | 'G' => true | 'H' => true | 'I' => true | 'J' => true
  | 'K' => true | 'L' => true | 'M' => true | 'N' => true | 'O' => true
  | 'P' => true | 'Q' => true | 'R' => true | 'S' => true | 'T' => true
  | 'U' => true | 'V' => true | 'W' => true | 'X' => true | 'Y' => true
  | 'Z' => true | _ => false

/-- ASCII lowercase letter test. -/
def isLoA : Char → Bool
  | 'a' => true | 'b' => true | 'c' => true | 'd' => true | 'e' => true
  | 'f' => true | 'g' => true | 'h' => true | 'i' => true | 'j' => true
  | 'k' => true | 'l' => true | 'm' => true | 'n' => true | 'o' => true
  | 'p' => true | 'q' => true | 'r' => true | 's' => true | 't' => true
  | 'u' => true | 'v' => true | 'w' => true | 'x' => true | 'y' => true
  | 'z' => true | _ => false

/-- ASCII digit test. -/
def isDigitA : Char → Bool
  | '0' => true | '1' => true | '2' => true | '3' => true | '4' => true
  | '5' => true | '6' => true | '7' => true | '8' => true | '9' => true
  | _ => false

/-- A character is "cased" for Python's `str.isupper` (ASCII model). -/
def isCased (c : Char) : Bool := isUpA c || isLoA c

/-- ASCII model of the `\w` class: alphanumeric or underscore. -/
def wordChar (c : Char) : Bool := isUpA c || isLoA c || isDigitA c || c = '_'

/-- The characters the punctuation-stripping regex `NON_ALNUM_RE = [^\w\s&-]`
leaves alone: word characters, whitespace, ampersand, hyphen. -/
def keepChar (c : Char) : Bool := wordChar c || isWs c || c = '&' || c = '-'

/-- Not one of the apostrophes removed by `APOSTROPHE_RE = [’']`. -/
def notApos (c : Char) : Bool := !(c = '\'' || c = '’')

/-- Python `str.strip()` (ASCII whitespace model): drop leading and trailing
whitespace. -/
def stripWs (l : List Char) : List Char :=
  ((l.dropWhile isWs).reverse.dropWhile isWs).reverse

/-- Whether a list starts with a whitespace character. -/
def headIsWs : List Char → Bool
  | [] => false
  | d :: _ => isWs d

/-- Fuel-indexed recursion for `collapseWs` (structural in the fuel so that
the kernel can evaluate it; the fuel is immaterial once it dominates the
length of the list, see `collapseF_congr`). -/
def collapseF : Nat → List Char → List Char
  | _, [] => []
  | 0, _ :: _ => []
  | f + 1, c :: cs =>
    if isWs c then
      if headIsWs cs then ' ' :: collapseF f (cs.dropWhile isWs)
      else c :: collapseF f cs
    else c :: collapseF f cs

/-- `MULTISPACE_RE.sub(" ", s)`: each run of two or more whitespace
characters becomes a single space; a lone whitespace character is kept
as it is. -/
def collapseWs (l : List Char) : List Char :=
  collapseF l.length l

/-- Fuel-indexed recursion for `splitWs` (structural in the fuel). -/
def splitF : Nat → List Char → List (List Char)
  | _, [] => []
  | 0, _ :: _ => []
  | f + 1, c :: cs =>
    if isWs c then splitF f cs
    else (c :: cs.takeWhile (fun d => !isWs d)) :: splitF f (cs.dropWhile (fun d => !isWs d))

/-- Python `str.split()` with no argument: split on whitespace runs,
dropping empty pieces. -/
def splitWs (l : List Char) : List (List Char) :=
  splitF l.length l

/-- Python `word.split("-")`: split on every hyphen, keeping empty pieces
(this is exactly `List.splitOn '-'`). -/
def splitOnHyphen (l : List Char) : List (List Char) :=
  l.splitOn '-' 

/-- Python `str.capitalize()`: first character uppercased, the rest
lowercased. -/
def pyCapitalize : List Char → List Char
  | [] => []
  | c :: cs => up1 c :: cs.map lo1

/-- Python `str.isupper()`: at least one cased character and every cased
character uppercase (ASCII model). -/
def pyIsUpper (l : List Char) : Bool :=
  l.any isCased && l.all (fun c => !isCased c || isUpA c)

/-- Least index `i` in `[start, start+fuel)` with `p i`, scanning upward —
the leftmost-match search that `re.sub` performs. -/
def firstMatch (p : Nat → Bool) : Nat → Nat → Option Nat
  | _, 0 => none
  | start, fuel + 1 => if p start then some start else firstMatch p (start + 1) fuel

/-- The alternatives of `LEGAL_SUFFIX_PATTERNS` that are fixed strings once
the optional `\.?` is expanded (all already lowercase, as the regex is
compiled with `re.IGNORECASE` and we compare lowered text). -/
def fixedSuffixes : List (List Char) :=
  ["incorporated", "inc", "inc.",
   "llc", "l.l.c", "l.l.c.",
   "company", "co", "co.",
   "corp", "corp.", "corporation",
   "limited", "ltd", "ltd.", "plc",
   "gmbh", "s.a", "s.a.", "bv", "b.v", "b.v.", "ag",
   "dds", "dmd",
   "p.c", "p.c.", "pc",
   "p.a", "p.a.", "pa",
   "llp", "l.l.p", "l.l.p.",
   "m.d", "m.d.", "md"].map String.data

/-- Matches the `a\s*b` alternatives (`p\s*c`, `p\s*a`, `m\s*d`): first
character `a`, last character `b`, only whitespace between. -/
def spacedPair (a b : Char) (l : List Char) : Bool :=
  match l with
  | [] => false
  | x :: rest => x = a && rest.dropLast.all isWs && rest.getLast? = some b

/-- Whether `core` (as matched text) matches one alternative of
`LEGAL_SUFFIX_PATTERNS`, case-insensitively. -/
def altMatch (core : List Char) : Bool :=
  let lc := core.map lo1
  fixedSuffixes.contains lc || spacedPair 'p' 'c' lc || spacedPair 'p' 'a' lc
    || spacedPair 'm' 'd' lc

/-- Whether `SUFFIX_RE = \s+(?:…)\s*$` matches starting exactly at the head
of `t` and consuming all of `t`: some nonempty whitespace run, then one
suffix alternative, then optional trailing whitespace. -/
def canMatchSuffix (t : List Char) : Bool :=
  (List.range (t.length + 1)).any fun i =>
    decide (1 ≤ i) && (t.take i).all isWs &&
      ((List.range (t.length - i + 1)).any fun j =>
        altMatch ((t.drop i).take j) && ((t.drop i).drop j).all isWs)

/-- Start position of the leftmost `SUFFIX_RE` match in `s` (the match always
extends to the end of the string because of the `$` anchor). -/
def suffixStart (s : List Char) : Option Nat :=
  firstMatch (fun i => canMatchSuffix (s.drop i)) 0 (s.length + 1)

/-- `SUFFIX_RE.sub("", s)`: delete the leftmost (and only possible) match. -/
def suffixStrip (s : List Char) : List Char :=
  match suffixStart s with
  | some i => s.take i
  | none => s

/-- The texts matched by `co\.?`, lowercased. -/
def coCores : List (List Char) := ["co", "co."].map String.data

/-- Whether `\s+co\.?$` matches starting exactly at the head of `t` and
consuming all of `t`. -/
def canMatchCo (t : List Char) : Bool :=
  (List.range (t.length + 1)).any fun i =>
    decide (1 ≤ i) && (t.take i).all isWs && coCores.contains ((t.drop i).map lo1)

/-- Start position of the leftmost `\s+co\.?$` match in `s`. -/
def coStart (s : List Char) : Option Nat :=
  firstMatch (fun i => canMatchCo (s.drop i)) 0 (s.length + 1)

/-- `re.sub(r"\s+co\.?$", "", s)` (line 84 of the source). -/
def coStrip (s : List Char) : List Char :=
  match coStart s with
  | some i => s.take i
  | none => s

/-- `re.search(r"&\s+co\.?$", s)` (line 83 of the source): an ampersand,
whitespace, then a final `co`/`co.`. -/
def ampCoCheck (s : List Char) : Bool :=
  (List.range (s.length + 1)).any fun i =>
    ((s.drop i).head? = some '&') && canMatchCo (s.drop (i + 1))

/-- The `STOPWORDS` set of the source, as lowercase strings. -/
def STOPWORDS : List (List Char) :=
  ["of", "and", "the", "for", "in", "on", "at", "with", "to", "from", "by"].map String.data

/-- The `STATE_CODES` set of the source. -/
def STATE_CODES : List (List Char) :=
  ["al", "ak", "az", "ar", "ca", "co", "ct", "de", "fl", "ga", "hi", "id", "il",
   "in", "ia", "ks", "ky", "la", "me", "md", "ma", "mi", "mn", "ms", "mo", "mt",
   "ne", "nv", "nh", "nj", "nm", "ny", "nc", "nd", "oh", "ok", "or", "pa", "ri",
   "sc", "sd", "tn", "tx", "ut", "vt", "va", "wa", "wv", "wi", "wy"].map String.data

/-- The `ACRONYM_WHITELIST` set of the source. -/
def ACRONYM_WL : List (List Char) :=
  ["usa", "bsn", "ibm", "uams", "uapb", "mri", "ct", "ltb"].map String.data

/-- `_smart_case(word, first)` from the source: stopwords lowercase unless
first (then capitalized); two-letter state codes uppercase; whitelisted
all-caps acronyms preserved; otherwise capitalize each hyphen-separated
part. -/
def smartCase (w : List Char) (first : Bool) : List Char :=
  let low := w.map lo1
  if STOPWORDS.contains low then
    if first then pyCapitalize w else low
  else if w.length == 2 && STATE_CODES.contains low then
    w.map up1
  else if pyIsUpper w && ACRONYM_WL.contains low then
    w
  else
    List.intercalate ['-'] ((splitOnHyphen w).map pyCapitalize)

/-- `[_smart_case(tok, i == 0) for i, tok in enumerate(tokens)]`:
the head token is styled with `first = true`, the rest with `false`. -/
def caseTokens : Bool → List (List Char) → List (List Char)
  | _, [] => []
  | first, t :: ts => smartCase t first :: caseTokens false ts

/-- Joining tokens with single spaces (`" ".join(styled)`). -/
def joinTokens (ts : List (List Char)) : List Char :=
  List.intercalate [' '] ts

/-- Stages 1–3 of `clean_company_name`: apostrophe removal
(`APOSTROPHE_RE.sub("", …)`), punctuation to space
(`NON_ALNUM_RE.sub(" ", …)`), whitespace collapse and trim
(`MULTISPACE_RE.sub(" ", …).strip()`). -/
def preClean (s : List Char) : List Char :=
  stripWs (collapseWs ((s.filter notApos).map (fun c => if keepChar c then c else ' ')))

/-- `clean_company_name` from the source, for non-null input (the `pd.isna`
branch returns `""` for missing values and is outside the string model). -/
def cleanL (s : List Char) : List Char :=
  let s3 := preClean s
  let s4 := stripWs (suffixStrip s3)
  let s5 := if ampCoCheck s4 then s4 else coStrip s4
  let styled := caseTokens true (splitWs s5)
  let final := if styled.getLast? = some ['&'] then styled ++ [['C', 'o']] else styled
  joinTokens final

/-- String-level wrapper of the normalizer. -/
def clean_company_name (s : String) : String :=
  ⟨cleanL s.data⟩

/-- String-level wrapper of `_smart_case`. -/
def smart_case (w : String) (first : Bool) : String :=
  ⟨smartCase w.data first⟩

/-- `process.extractOne(query, choices, scorer=…)` from rapidfuzz, as used at
line 105 of the source: `none` when `choices` is empty, otherwise the first
choice attaining the maximal score together with that score (a later choice
replaces the current best only on a strictly greater score). The scorer is a
parameter because rapidfuzz is an external library. -/
def extractOne (scorer : String → String → ℚ) (q : String) : List String → Option (String × ℚ)
  | [] => none
  | k :: ks =>
    match extractOne scorer q ks with
    | none => some (k, scorer q k)
    | some (b, sb) => if sb > scorer q k then some (b, sb) else some (k, scorer q k)

/-- One iteration of the `fuzzy_deduplicate` loop body (lines 101–111):
falsy (empty) values pass through unregistered; a best match scoring at
least the threshold yields that match as canonical; otherwise the value
becomes a new representative, appended to `known`. Returns the new `known`
and the canonical value appended to `out`. -/
def dedupStep (scorer : String → String → ℚ) (t : ℚ) (known : List String) (v : String) :
    List String × String :=
  if v = "" then (known, v)
  else
    match extractOne scorer v known with
    | some (b, s) => if t ≤ s then (known, b) else (known ++ [v], v)
    | none => (known ++ [v], v)

/-- The whole loop of `fuzzy_deduplicate`, threaded over the input list;
returns the final `known` list and the output column. -/
def dedupRun (scorer : String → String → ℚ) (t : ℚ) :
    List String → List String → List String × List String
  | known, [] => (known, [])
  | known, v :: vs =>
    let kc := dedupStep scorer t known v
    let rest := dedupRun scorer t kc.1 vs
    (rest.1, kc.2 :: rest.2)

/-- `fuzzy_deduplicate(series, threshold)` from the source: the output column
(the pandas index is positional here, so a plain list models the series).
The threshold arrives as a number with no validation anywhere in the
function. -/
def fuzzy_deduplicate (scorer : String → String → ℚ) (t : ℚ) (xs : List String) :
    List String :=
  (dedupRun scorer t [] xs).2

/-- Modelled from the spec: `rapidfuzz.fuzz.token_set_ratio` is an external
library, not part of this repository's sources; the spec describes it as a
token-set similarity — "comparing deduplicated token sets of two strings",
"score reflects the fraction of tokens shared after deduplication, scaled
0–100". This concrete model returns 100 exactly when the deduplicated token
sets coincide, and otherwise the Jaccard fraction of shared tokens scaled
to 0–100 (rounded down to an integer, so the score is a whole number of
points as the documented formula). It instantiates the abstract scorer in
witnesses. -/
def tokenSetSim (a b : String) : ℚ :=
  let A := ((splitWs a.data).map fun t => (⟨t⟩ : String)).toFinset
  let B := ((splitWs b.data).map fun t => (⟨t⟩ : String)).toFinset
  if A = B then 100 else (((100 * (A ∩ B).card) / (A ∪ B).card : ℕ) : ℚ)

theorem lo1_up1 (c : Char) : lo1 (up1 c) = lo1 c := by
  unfold up1; split <;> (try subst_vars) <;> first | rfl | decide

theorem isUpA_lo1 (c : Char) : isUpA (lo1 c) = false := by
  unfold lo1; split <;> (try subst_vars) <;> first | rfl | decide | (unfold isUpA; split <;> simp_all)

theorem isLoA_up1 (c : Char) : isLoA (up1 c) = false := by
  unfold up1; split <;> (try subst_vars) <;> first | rfl | decide | (unfold isLoA; split <;> simp_all)

theorem lo1_id_of_not_up (c : Char) (h : isUpA c = false) : lo1 c = c := by
  revert h; unfold lo1; split <;> (try subst_vars) <;> first | (intro h; rfl) | decide

theorem up1_id_of_not_lo (c : Char) (h : isLoA c = false) : up1 c = c := by
  revert h; unfold up1; split <;> (try subst_vars) <;> first | (intro h; rfl) | decide

theorem lo1_lo1 (c : Char) : lo1 (lo1 c) = lo1 c :=
  lo1_id_of_not_up _ (isUpA_lo1 c)

theorem up1_up1 (c : Char) : up1 (up1 c) = up1 c :=
  up1_id_of_not_lo _ (isLoA_up1 c)

theorem isWs_up1 (c : Char) : isWs (up1 c) = isWs c := by
  unfold up1; split <;> (try subst_vars) <;> first | rfl | decide

theorem isWs_lo1 (c : Char) : isWs (lo1 c) = isWs c := by
  unfold lo1; split <;> (try subst_vars) <;> first | rfl | decide

theorem keep_up1 (c : Char) : keepChar (up1 c) = keepChar c := by
  unfold up1; split <;> (try subst_vars) <;> first | rfl | decide

theorem keep_lo1 (c : Char) : keepChar (lo1 c) = keepChar c := by
  unfold lo1; split <;> (try subst_vars) <;> first | rfl | decide

theorem notApos_up1 (c : Char) : notApos (up1 c) = notApos c := by
  unfold up1; split <;> (try subst_vars) <;> first | rfl | decide

theorem notApos_lo1 (c : Char) : notApos (lo1 c) = notApos c := by
  unfold lo1; split <;> (try subst_vars) <;> first | rfl | decide

theorem hy_up1 (c : Char) : (up1 c = '-') = (c = '-') := by
  unfold up1; split <;> (try subst_vars) <;> first | rfl | decide

theorem hy_lo1 (c : Char) : (lo1 c = '-') = (c = '-') := by
  unfold lo1; split <;> (try subst_vars) <;> first | rfl | decide

theorem dropWhile_length_le (p : Char → Bool) (l : List Char) :
    (l.dropWhile p).length ≤ l.length := by
  induction l with
  | nil => simp [List.dropWhile]
  | cons c cs ih => simp only [List.dropWhile]; split <;> simp <;> omega

theorem collapseF_congr : ∀ (f₁ f₂ : Nat) (l : List Char),
    l.length ≤ f₁ → l.length ≤ f₂ → collapseF f₁ l = collapseF f₂ l := by
  intro f₁
  induction f₁ with
  | zero =>
    intro f₂ l h1 _
    have : l = [] := List.length_eq_zero.mp (Nat.le_zero.mp h1)
    subst this
    cases f₂ <;> rfl
  | succ f ih =>
    intro f₂ l h1 h2
    cases l with
    | nil => cases f₂ <;> rfl
    | cons c cs =>
      cases f₂ with
      | zero => simp at h2
      | succ f₂' =>
        simp only [List.length_cons, Nat.succ_le_succ_iff] at h1 h2
        have hd := dropWhile_length_le isWs cs
        simp only [collapseF]
        rw [ih f₂' (cs.dropWhile isWs) (le_trans hd h1) (le_trans hd h2),
          ih f₂' cs h1 h2]

theorem collapseWs_nil : collapseWs [] = [] := rfl

theorem collapseWs_cons (c : Char) (cs : List Char) :
    collapseWs (c :: cs) =
      if isWs c then
        if headIsWs cs then ' ' :: collapseWs (cs.dropWhile isWs)
        else c :: collapseWs cs
      else c :: collapseWs cs := by
  show collapseF (cs.length + 1) (c :: cs) = _
  have hd := dropWhile_length_le isWs cs
  simp only [collapseF, collapseWs]
  rw [collapseF_congr cs.length (cs.dropWhile isWs).length (cs.dropWhile isWs) hd le_rfl,
    collapseF_congr cs.length cs.length cs le_rfl le_rfl]

theorem splitF_congr : ∀ (f₁ f₂ : Nat) (l : List Char),
    l.length ≤ f₁ → l.length ≤ f₂ → splitF f₁ l = splitF f₂ l := by
  intro f₁
  induction f₁ with
  | zero =>
    intro f₂ l h1 _
    have : l = [] := List.length_eq_zero.mp (Nat.le_zero.mp h1)
    subst this
    cases f₂ <;> rfl
  | succ f ih =>
    intro f₂ l h1 h2
    cases l with
    | nil => cases f₂ <;> rfl
    | cons c cs =>
      cases f₂ with
      | zero => simp at h2
      | succ f₂' =>
        simp only [List.length_cons, Nat.succ_le_succ_iff] at h1 h2
        have hd := dropWhile_length_le (fun d => !isWs d) cs
        simp only [splitF]
        rw [ih f₂' cs h1 h2,
          ih f₂' (cs.dropWhile (fun d => !isWs d)) (le_trans hd h1) (le_trans hd h2)]

theorem splitWs_nil : splitWs [] = [] := rfl

theorem splitWs_cons (c : Char) (cs : List Char) :
    splitWs (c :: cs) =
      if isWs c then splitWs cs
      else (c :: cs.takeWhile (fun d => !isWs d)) ::
        splitWs (cs.dropWhile (fun d => !isWs d)) := by
  show splitF (cs.length + 1) (c :: cs) = _
  have hd := dropWhile_length_le (fun d => !isWs d) cs
  simp only [splitF, splitWs]
  rw [splitF_congr cs.length (cs.dropWhile (fun d => !isWs d)).length
      (cs.dropWhile (fun d => !isWs d)) hd le_rfl,
    splitF_congr cs.length cs.length cs le_rfl le_rfl]

theorem tokenSetSim_self (x : String) : tokenSetSim x x = 100 := by
  simp [tokenSetSim]

theorem extractOne_ne_none (scorer : String → String → ℚ) (q k : String) (ks : List String) :
    extractOne scorer q (k :: ks) ≠ none := by
  simp only [extractOne]
  cases extractOne scorer q ks with
  | none => simp
  | some p =>
    obtain ⟨b, sb⟩ := p
    dsimp only
    split <;> simp

/-- Full characterisation of rapidfuzz's `extractOne` as embedded: the result
carries its own score, that score dominates every choice, and the winner is
the first choice in list order attaining it (everything before it scores
strictly less). -/
theorem extractOne_spec (scorer : String → String → ℚ) (q : String) :
    ∀ (l : List String) (b : String) (s : ℚ), extractOne scorer q l = some (b, s) →
      scorer q b = s ∧ (∀ k ∈ l, scorer q k ≤ s) ∧
      ∃ l₁ l₂, l = l₁ ++ b :: l₂ ∧ ∀ k ∈ l₁, scorer q k < s := by
  intro l
  induction l with
  | nil => intro b s h; simp [extractOne] at h
  | cons k ks ih =>
    intro b s h
    simp only [extractOne] at h
    cases he : extractOne scorer q ks with
    | none =>
      rw [he] at h
      simp only [Option.some.injEq, Prod.mk.injEq] at h
      obtain ⟨hb, hs⟩ := h
      subst hb
      have hks : ks = [] := by
        cases ks with
        | nil => rfl
        | cons a as => exact absurd he (extractOne_ne_none scorer q a as)
      subst hks
      refine ⟨hs, ?_, [], [], rfl, by simp⟩
      intro k' hk'
      simp at hk'
      subst hk'
      exact le_of_eq hs
    | some p =>
      obtain ⟨b', sb⟩ := p
      rw [he] at h
      dsimp only at h
      obtain ⟨hsb, hks, l₁, l₂, hdec, hlt⟩ := ih b' sb he
      by_cases hgt : sb > scorer q k
      · rw [if_pos hgt] at h
        simp only [Option.some.injEq, Prod.mk.injEq] at h
        obtain ⟨hb, hs⟩ := h
        subst hb
        subst hs
        refine ⟨hsb, ?_, k :: l₁, l₂, by rw [hdec]; rfl, ?_⟩
        · intro k' hk'
          rcases List.mem_cons.mp hk' with h1 | h1
          · subst h1; exact le_of_lt hgt
          · exact hks k' h1
        · intro k' hk'
          rcases List.mem_cons.mp hk' with h1 | h1
          · subst h1; exact hgt
          · exact hlt k' h1
      · rw [if_neg hgt] at h
        simp only [Option.some.injEq, Prod.mk.injEq] at h
        obtain ⟨hb, hs⟩ := h
        subst hb
        refine ⟨hs, ?_, [], ks, rfl, by simp⟩
        intro k' hk'
        rcases List.mem_cons.mp hk' with h1 | h1
        · subst h1; exact le_of_eq hs
        · exact le_trans (hks k' h1) (by rw [← hs]; exact le_of_not_lt hgt)

theorem dedupRun_out_length (scorer : String → String → ℚ) (t : ℚ) :
    ∀ (xs known : List String), ((dedupRun scorer t known xs).2).length = xs.length := by
  intro xs
  induction xs with
  | nil => intro known; rfl
  | cons v vs ih => intro known; simp only [dedupRun, List.length_cons, ih]

theorem dedupStep_known_pairwise (scorer : String → String → ℚ) (t : ℚ)
    (known : List String) (v : String)
    (h : known.Pairwise (fun a b => scorer b a < t)) :
    ((dedupStep scorer t known v).1).Pairwise (fun a b => scorer b a < t) := by
  unfold dedupStep
  split
  · exact h
  · cases he : extractOne scorer v known with
    | none =>
      have hk : known = [] := by
        cases known with
        | nil => rfl
        | cons a as => exact absurd he (extractOne_ne_none scorer v a as)
      subst hk
      simp
    | some p =>
      obtain ⟨b, sb⟩ := p
      dsimp only
      split
      · exact h
      · rename_i hts
        obtain ⟨hsb, hks, _⟩ := extractOne_spec scorer v known b sb he
        refine List.pairwise_append.mpr ⟨h, List.pairwise_singleton _ _, ?_⟩
        intro a ha b' hb'
        rcases List.mem_singleton.mp hb'
        exact lt_of_le_of_lt (hks a ha) (lt_of_not_le hts)

theorem dedupRun_known_pairwise (scorer : String → String → ℚ) (t : ℚ) :
    ∀ (xs known : List String),
      known.Pairwise (fun a b => scorer b a < t) →
      ((dedupRun scorer t known xs).1).Pairwise (fun a b => scorer b a < t) := by
  intro xs
  induction xs with
  | nil => intro known h; exact h
  | cons v vs ih =>
    intro known h
    exact ih _ (dedupStep_known_pairwise scorer t known v h)

/-- Claim C6, counterexample: `fuzzy_deduplicate` performs no threshold
validation. With the out-of-range threshold 150 it happily runs the matching
loop over both rows and returns an output (no rejection); and a pair scoring
100 is not grouped, whereas under a clamp of the threshold to the valid
range (at most 100) it would be — so the threshold is not silently clamped
either. -/
theorem c6_no_rejection_at_150 :
    fuzzy_deduplicate tokenSetSim 150 ["a b", "b a"] = ["a b", "b a"] ∧
      tokenSetSim "a b" "b a" = 100 ∧
      fuzzy_deduplicate tokenSetSim 100 ["a b", "b a"] = ["a b", "a b"] := by
  refine ⟨by decide, by decide, by decide⟩

/-- Claim C6, amended: the grouper rejects nothing: for every threshold —
in particular every out-of-range one — `fuzzy_deduplicate` runs the matching
loop over the whole input and produces one output row per input row. -/
theorem c6_amended_no_validation (scorer : String → String → ℚ) (t : ℚ)
    (xs : List String) :
    (fuzzy_deduplicate scorer t xs).length = xs.length :=
  dedupRun_out_length scorer t xs []

/-- Claim C7 (confirmed): when a nonempty row has a best match scoring at
least the threshold, the row is assigned exactly that representative, the
`known` list is left unchanged (an existing representative is never replaced),
the assigned representative attains the best score over all of `known`, and
every representative registered before it scores strictly less — so among
ties the earliest-registered representative wins, deterministically. -/
theorem c7_best_match_earliest_tie (scorer : String → String → ℚ) (t : ℚ)
    (known : List String) (v b : String) (s : ℚ)
    (hv : v ≠ "") (he : extractOne scorer v known = some (b, s)) (ht : t ≤ s) :
    dedupStep scorer t known v = (known, b) ∧
      scorer v b = s ∧ (∀ k ∈ known, scorer v k ≤ s) ∧
      ∃ l₁ l₂, known = l₁ ++ b :: l₂ ∧ ∀ k ∈ l₁, scorer v k < s := by
  obtain ⟨hs, hmax, l₁, l₂, hdec, hlt⟩ := extractOne_spec scorer v known b s he
  refine ⟨?_, hs, hmax, l₁, l₂, hdec, hlt⟩
  unfold dedupStep
  rw [if_neg hv, he]
  dsimp only
  rw [if_pos ht]

/-- Witness for C7 at a concrete tie: `"x y"` scores 100 against both known
representatives; the earlier one (`"x y"`) is selected and `known` is kept. -/
theorem c7_witness :
    dedupStep tokenSetSim 92 ["x y", "y x"] "x y" = (["x y", "y x"], "x y") :=
  (c7_best_match_earliest_tie tokenSetSim 92 ["x y", "y x"] "x y" "x y" 100
    (by decide) (by decide) (by decide)).1

/-- Claim C9 (confirmed): the threshold comparison `match[1] >= threshold` is
inclusive — a row whose best score equals the threshold exactly is assigned
the existing representative and is not registered as a new one. -/
theorem c9_threshold_inclusive (scorer : String → String → ℚ) (t : ℚ)
    (known : List String) (v b : String)
    (hv : v ≠ "") (he : extractOne scorer v known = some (b, t)) :
    dedupStep scorer t known v = (known, b) := by
  unfold dedupStep
  rw [if_neg hv, he]
  dsimp only
  rw [if_pos le_rfl]

/-- Witness for C9: `"b a"` scores exactly 100 against the representative
`"a b"`, and with threshold exactly 100 it is grouped, not registered. -/
theorem c9_witness :
    dedupStep tokenSetSim 100 ["a b"] "b a" = (["a b"], "a b") :=
  c9_threshold_inclusive tokenSetSim 100 ["a b"] "b a" "a b" (by decide) (by decide)

/-- Claim C10 (confirmed): after processing any input with any threshold,
every later representative scores strictly below the threshold against every
earlier one; and when the scorer gives identical strings the maximal score
100 and the threshold is at most 100, the representatives are pairwise
distinct — a name equal to an existing representative is never registered
again. -/
theorem c10_known_pairwise_below_threshold (scorer : String → String → ℚ)
    (t : ℚ) (xs : List String) :
    ((dedupRun scorer t [] xs).1).Pairwise (fun a b => scorer b a < t) ∧
      ((∀ x, scorer x x = 100) → t ≤ 100 → ((dedupRun scorer t [] xs).1).Nodup) := by
  have hp := dedupRun_known_pairwise scorer t xs [] (List.Pairwise.nil)
  refine ⟨hp, fun hself hT => ?_⟩
  refine hp.imp ?_
  intro a b hab heq
  subst heq
  rw [hself a] at hab
  exact absurd (lt_of_le_of_lt hT hab) (lt_irrefl t)

/-- Witness for C10 on a concrete run: `["a b", "b a", "c"]` at threshold 92
yields the representatives `["a b", "c"]`, pairwise strictly below 92 and
pairwise distinct. -/
theorem c10_witness :
    ((dedupRun tokenSetSim 92 [] ["a b", "b a", "c"]).1).Pairwise
        (fun a b => tokenSetSim b a < 92) ∧
      ((dedupRun tokenSetSim 92 [] ["a b", "b a", "c"]).1).Nodup :=
  ⟨(c10_known_pairwise_below_threshold tokenSetSim 92 ["a b", "b a", "c"]).1,
    (c10_known_pairwise_below_threshold tokenSetSim 92 ["a b", "b a", "c"]).2
      tokenSetSim_self (by decide)⟩

/-- Claim C1, counterexample: the normalizer is not idempotent. One run of
`clean_company_name` on `"Acme Inc Inc"` strips only the final `"Inc"`,
leaving `"Acme Inc"`; a second run strips again, so
`normalize (normalize x) ≠ normalize x` at this input. -/
theorem c1_counterexample :
    clean_company_name "Acme Inc Inc" = "Acme Inc" ∧
      clean_company_name "Acme Inc" = "Acme" ∧
      clean_company_name (clean_company_name "Acme Inc Inc") ≠
        clean_company_name "Acme Inc Inc" :=
  ⟨by decide, by decide, by decide⟩

/-- Claim C2, counterexample: `"in"` is both a stopword and a state code, and
`_smart_case` tests stopwords first, so the non-leading token `"IN"` is
lowercased to `"in"`, not uppercased to `"IN"` as the claim states. -/
theorem c2_counterexample :
    smart_case "IN" false = "in" ∧ clean_company_name "Acme IN" = "Acme in" :=
  ⟨by decide, by decide⟩

/-- Claim C3, counterexample: on `"Acme Co Inc"` the suffix regex removes the
one suffix `"Inc"`, but then lines 83–84 additionally remove the now-trailing
`"Co"`, so two suffixes are removed in the same run and the output is
`"Acme"`, not `"Acme Co"`. -/
theorem c3_counterexample :
    clean_company_name "Acme Co Inc" = "Acme" ∧
      clean_company_name "Acme Co Inc" ≠ "Acme Co" :=
  ⟨by decide, by decide⟩

/-- Claim C4, counterexample: there is no generic "all-caps and at most 3
characters" preservation rule — `"FBI"` is not in `ACRONYM_WHITELIST`, so it
is title-cased to `"Fbi"` instead of being preserved. -/
theorem c4_counterexample :
    smart_case "FBI" false = "Fbi" ∧ clean_company_name "FBI Labs" = "Fbi Labs" :=
  ⟨by decide, by decide⟩

/-- Claim C5, counterexample: `NON_ALNUM_RE.sub(" ", …)` replaces punctuation
with a space rather than deleting it, so an interior period splits the token:
`"J.Crew"` becomes `"J Crew"` (two tokens), not `"JCrew"`. Also the underscore
is a `\w` character and is kept, though it is not alphanumeric. -/
theorem c5_counterexample :
    clean_company_name "J.Crew" = "J Crew" ∧ clean_company_name "A_B" = "A_b" :=
  ⟨by decide, by decide⟩

/-- Claim C8, counterexample: in `"X&& Co"` the input ends with `"& Co"`, but
after suffix stripping the remaining ampersand is glued to the token `"X&&"`,
so the repair at line 89 (which requires the last token to be exactly `"&"`)
does not fire and the output `"X&&"` does not end with `"& Co"`. -/
theorem c8_counterexample :
    clean_company_name "X&& Co" = "X&&" ∧
      (("& Co").data.isSuffixOf (clean_company_name "X&& Co").data) = false :=
  ⟨by decide, by decide⟩

theorem intercalate_single (sep : List Char) (x : List Char) :
    List.intercalate sep [x] = x := by
  simp [List.intercalate]

theorem splitOnHyphen_eq_single (w : List Char) (h : ¬ '-' ∈ w) :
    splitOnHyphen w = [w] := by
  unfold splitOnHyphen List.splitOn
  apply List.splitOnP_eq_single
  intro x hx
  simp only [beq_iff_eq]
  intro he
  exact h (he ▸ hx)

/-- Claim C2, amended: the stopword rule is tested before the state-code rule,
so a two-letter state code is uppercased only when it is not also a stopword
(the one overlap is "in"); every non-stopword two-letter state code token is
uppercased, first or not. -/
theorem c2_amended_state_code_if_not_stopword (w : List Char) (f : Bool)
    (h1 : w.length = 2) (h2 : w.map lo1 ∈ STATE_CODES)
    (h3 : w.map lo1 ∉ STOPWORDS) :
    smartCase w f = w.map up1 := by
  simp [smartCase, h1, h2, h3]

/-- Witness for the amended C2: the non-stopword state code "ca" is
uppercased in non-leading position. -/
theorem c2_amended_witness : smartCase ("ca").data false = ("CA").data :=
  (c2_amended_state_code_if_not_stopword ("ca").data false (by decide) (by decide)
    (by decide)).trans (by decide)

/-- Claim C4, amended: there is no generic short-acronym rule. For a
hyphen-free token that is neither a stopword nor a two-letter state code,
`_smart_case` preserves the token exactly when it is fully uppercase AND its
lowercasing is in `ACRONYM_WHITELIST`; otherwise — in particular for generic
all-caps tokens of three characters or fewer, like "FBI" — it applies
`str.capitalize`, which lowercases everything after the first character. -/
theorem c4_amended_whitelist_only (w : List Char) (f : Bool)
    (h3 : w.map lo1 ∉ STOPWORDS)
    (h4 : ¬ (w.length = 2 ∧ w.map lo1 ∈ STATE_CODES))
    (h5 : ¬ '-' ∈ w) :
    smartCase w f =
      if pyIsUpper w = true ∧ w.map lo1 ∈ ACRONYM_WL then w
      else pyCapitalize w := by
  by_cases hc : pyIsUpper w = true ∧ w.map lo1 ∈ ACRONYM_WL
  · simp [smartCase, h3, h4, hc]
  · rw [if_neg hc]
    have hs := splitOnHyphen_eq_single w h5
    simp [smartCase, h3, h4, hc, hs, intercalate_single]

/-- Witness for the amended C4: "FBI" is all-caps, three letters, not
whitelisted — it is capitalized to "Fbi", not preserved. -/
theorem c4_amended_witness : smartCase ("FBI").data false = ("Fbi").data :=
  (c4_amended_whitelist_only ("FBI").data false (by decide) (by decide)
    (by decide)).trans (by decide)

theorem firstMatch_some_spec (p : Nat → Bool) :
    ∀ (fuel start i : Nat), firstMatch p start fuel = some i →
      p i = true ∧ start ≤ i ∧ ∀ j, start ≤ j → j < i → p j = false := by
  intro fuel
  induction fuel with
  | zero => intro start i h; simp [firstMatch] at h
  | succ f ih =>
    intro start i h
    simp only [firstMatch] at h
    by_cases hp : p start = true
    · rw [if_pos hp] at h
      obtain rfl : start = i := by simpa using h
      exact ⟨hp, le_rfl, fun j h1 h2 => absurd (lt_of_le_of_lt h1 h2) (lt_irrefl _)⟩
    · rw [if_neg hp] at h
      obtain ⟨h1, h2, h3⟩ := ih (start + 1) i h
      refine ⟨h1, le_trans (Nat.le_succ start) h2, ?_⟩
      intro j hj1 hj2
      rcases Nat.eq_or_lt_of_le hj1 with rfl | hlt
      · simpa using hp
      · exact h3 j (Nat.succ_le_of_lt hlt) hj2

theorem canMatchSuffix_decomp (t : List Char) (h : canMatchSuffix t = true) :
    ∃ ws core tr, t = ws ++ core ++ tr ∧ ws ≠ [] ∧ ws.all isWs = true ∧
      altMatch core = true ∧ tr.all isWs = true := by
  simp only [canMatchSuffix, List.any_eq_true, List.mem_range] at h
  obtain ⟨i, hi, hcond⟩ := h
  simp only [Bool.and_eq_true, decide_eq_true_eq, List.any_eq_true, List.mem_range] at hcond
  obtain ⟨⟨h1i, hws⟩, j, hj, hcore, htr⟩ := hcond
  refine ⟨t.take i, (t.drop i).take j, (t.drop i).drop j, ?_, ?_, hws, hcore, htr⟩
  · rw [List.append_assoc, List.take_append_drop, List.take_append_drop]
  · have : (t.take i).length = i := List.length_take_of_le (by omega)
    intro hnil
    rw [hnil] at this
    simp at this
    omega

theorem canMatchSuffix_of_decomp (ws core tr : List Char)
    (hne : ws ≠ []) (hws : ws.all isWs = true)
    (hcore : altMatch core = true) (htr : tr.all isWs = true) :
    canMatchSuffix (ws ++ core ++ tr) = true := by
  simp only [canMatchSuffix, List.any_eq_true, List.mem_range]
  refine ⟨ws.length, ?_, ?_⟩
  · simp only [List.length_append]
    omega
  · simp only [Bool.and_eq_true, decide_eq_true_eq, List.any_eq_true, List.mem_range]
    have hd : (ws ++ (core ++ tr)).drop ws.length = core ++ tr := List.drop_left ws (core ++ tr)
    have ht : (ws ++ (core ++ tr)).take ws.length = ws := List.take_left ws (core ++ tr)
    rw [List.append_assoc]
    refine ⟨⟨?_, by rw [ht]; exact hws⟩, core.length, ?_, ?_⟩
    · have : 0 < ws.length := List.length_pos.mpr hne
      omega
    · simp only [List.length_append]
      omega
    · rw [hd]
      constructor
      · rw [List.take_left]
        exact hcore
      · rw [List.drop_left]
        exact htr

theorem canMatchCo_decomp (t : List Char) (h : canMatchCo t = true) :
    ∃ ws core, t = ws ++ core ∧ ws ≠ [] ∧ ws.all isWs = true ∧
      coCores.contains (core.map lo1) = true := by
  simp only [canMatchCo, List.any_eq_true, List.mem_range] at h
  obtain ⟨i, hi, hcond⟩ := h
  simp only [Bool.and_eq_true, decide_eq_true_eq] at hcond
  obtain ⟨⟨h1i, hws⟩, hco⟩ := hcond
  refine ⟨t.take i, t.drop i, (List.take_append_drop i t).symm, ?_, hws, hco⟩
  have : (t.take i).length = i := List.length_take_of_le (by omega)
  intro hnil
  rw [hnil] at this
  simp at this
  omega

/-- Claim C3, amended: each regex application removes at most one suffix.
`SUFFIX_RE.sub` either leaves the string unchanged or cuts exactly one tail
of the form whitespace + one `LEGAL_SUFFIX_PATTERNS` alternative + optional
trailing whitespace; the separate `re.sub(r"\s+co\.?$")` of line 84 either
leaves the string unchanged or cuts exactly one tail of the form
whitespace + `co`/`co.`. (Their combination may therefore remove two
suffixes in one normalizer run, as the counterexample shows.) -/
theorem c3_amended_one_suffix_per_stage (s : List Char) :
    (suffixStrip s = s ∨
      ∃ i ws core tr, suffixStrip s = s.take i ∧ s.drop i = ws ++ core ++ tr ∧
        ws ≠ [] ∧ ws.all isWs = true ∧ altMatch core = true ∧ tr.all isWs = true) ∧
    (coStrip s = s ∨
      ∃ i ws core, coStrip s = s.take i ∧ s.drop i = ws ++ core ∧
        ws ≠ [] ∧ ws.all isWs = true ∧ coCores.contains (core.map lo1) = true) := by
  constructor
  · unfold suffixStrip
    cases hs : suffixStart s with
    | none => exact Or.inl rfl
    | some i =>
      obtain ⟨hp, _, _⟩ := firstMatch_some_spec _ _ _ _ hs
      obtain ⟨ws, core, tr, hdec, hne, hws, hcore, htr⟩ := canMatchSuffix_decomp _ hp
      exact Or.inr ⟨i, ws, core, tr, rfl, hdec, hne, hws, hcore, htr⟩
  · unfold coStrip
    cases hs : coStart s with
    | none => exact Or.inl rfl
    | some i =>
      obtain ⟨hp, _, _⟩ := firstMatch_some_spec _ _ _ _ hs
      obtain ⟨ws, core, hdec, hne, hws, hco⟩ := canMatchCo_decomp _ hp
      exact Or.inr ⟨i, ws, core, rfl, hdec, hne, hws, hco⟩

theorem notApos_of_word (c : Char) (h : wordChar c = true) : notApos c = true := by
  cases hn : notApos c with
  | true => rfl
  | false =>
    simp only [notApos, Bool.not_eq_false', Bool.or_eq_true, decide_eq_true_eq] at hn
    rcases hn with rfl | rfl <;> exact absurd h (by decide)

theorem not_ws_of_word (c : Char) (h : wordChar c = true) : isWs c = false := by
  cases hw : isWs c with
  | false => rfl
  | true =>
    simp only [isWs, Bool.or_eq_true, decide_eq_true_eq] at hw
    rcases hw with ((((rfl | rfl) | rfl) | rfl) | rfl) | rfl <;> exact absurd h (by decide)

theorem keep_of_word (c : Char) (h : wordChar c = true) : keepChar c = true := by
  simp [keepChar, h]

theorem map_keep_id (l : List Char) (h : ∀ x ∈ l, keepChar x = true) :
    l.map (fun c => if keepChar c then c else ' ') = l := by
  induction l with
  | nil => rfl
  | cons a t ih =>
    simp only [List.map_cons, if_pos (h a (List.mem_cons_self a t)),
      ih (fun x hx => h x (List.mem_cons_of_mem a hx))]

theorem dropWhile_id_of_head (p : Char → Bool) (l : List Char)
    (h : ∀ c, l.head? = some c → p c = false) : l.dropWhile p = l := by
  cases l with
  | nil => rfl
  | cons a t => rw [List.dropWhile_cons, if_neg (by simp [h a rfl])]

theorem stripWs_id (l : List Char)
    (h1 : ∀ c, l.head? = some c → isWs c = false)
    (h2 : ∀ c, l.getLast? = some c → isWs c = false) : stripWs l = l := by
  unfold stripWs
  rw [dropWhile_id_of_head isWs l h1,
    dropWhile_id_of_head isWs l.reverse (by simpa [List.head?_reverse] using h2),
    List.reverse_reverse]

theorem chain'_no_ws (l : List Char) (h : ∀ x ∈ l, isWs x = false) :
    l.Chain' (fun a b => isWs a = false ∨ isWs b = false) := by
  induction l with
  | nil => exact List.chain'_nil
  | cons a t ih =>
    cases t with
    | nil => exact List.chain'_singleton a
    | cons b t' =>
      rw [List.chain'_cons]
      exact ⟨Or.inl (h a (List.mem_cons_self _ _)),
        ih (fun x hx => h x (List.mem_cons_of_mem a hx))⟩

theorem collapseWs_id (l : List Char)
    (h : l.Chain' (fun a b => isWs a = false ∨ isWs b = false)) :
    collapseWs l = l := by
  induction l with
  | nil => rfl
  | cons c cs ih =>
    rw [collapseWs_cons]
    cases hcw : isWs c with
    | false =>
      simp only [Bool.false_eq_true, if_false]
      rw [ih h.tail]
    | true =>
      simp only [if_true]
      cases cs with
      | nil => simp [headIsWs, collapseWs_nil]
      | cons d ds =>
        obtain ⟨hcd, htail⟩ := List.chain'_cons.mp h
        have hd : isWs d = false := by
          rcases hcd with h' | h'
          · rw [hcw] at h'; cases h'
          · exact h'
        simp only [headIsWs, hd, Bool.false_eq_true, if_false]
        rw [ih htail]

/-- Claim C5, amended: the punctuation stage deletes nothing — a character
that is not a word character (alphanumeric or underscore), whitespace,
ampersand or hyphen is replaced by a space, so it splits the surrounding
word into two tokens (apostrophes, removed beforehand by stage 1, are the
only characters deleted outright). Stated on the preprocessing pipeline
`preClean` (stages 1–3 of `clean_company_name`): a single such character
between two word-character runs becomes exactly one separating space. -/
theorem c5_amended_punct_becomes_space (u v : List Char) (c : Char)
    (hu0 : u ≠ []) (hv0 : v ≠ [])
    (hu : ∀ x ∈ u, wordChar x = true) (hv : ∀ x ∈ v, wordChar x = true)
    (hc : keepChar c = false) (hca : notApos c = true) :
    preClean (u ++ c :: v) = u ++ ' ' :: v := by
  unfold preClean
  have hfil : (u ++ c :: v).filter notApos = u ++ c :: v := by
    rw [List.filter_eq_self]
    intro a ha
    rcases List.mem_append.mp ha with h | h
    · exact notApos_of_word a (hu a h)
    · rcases List.mem_cons.mp h with rfl | h'
      · exact hca
      · exact notApos_of_word a (hv a h')
  rw [hfil]
  have hmap : (u ++ c :: v).map (fun c => if keepChar c then c else ' ') =
      u ++ ' ' :: v := by
    rw [List.map_append, List.map_cons, if_neg (by simp [hc]),
      map_keep_id u (fun x hx => keep_of_word x (hu x hx)),
      map_keep_id v (fun x hx => keep_of_word x (hv x hx))]
  rw [hmap]
  have hnw : ∀ x ∈ u ++ ' ' :: v, x = ' ' ∨ isWs x = false := by
    intro x hx
    rcases List.mem_append.mp hx with h | h
    · exact Or.inr (not_ws_of_word x (hu x h))
    · rcases List.mem_cons.mp h with rfl | h'
      · exact Or.inl rfl
      · exact Or.inr (not_ws_of_word x (hv x h'))
  have hcol : collapseWs (u ++ ' ' :: v) = u ++ ' ' :: v := by
    apply collapseWs_id
    rw [List.chain'_append]
    refine ⟨chain'_no_ws u (fun x hx => not_ws_of_word x (hu x hx)), ?_, ?_⟩
    · rw [List.chain'_cons']
      refine ⟨?_, chain'_no_ws v (fun x hx => not_ws_of_word x (hv x hx))⟩
      intro y hy
      exact Or.inr (not_ws_of_word y (hv y (by
        cases v with
        | nil => simp at hy
        | cons a t => simp at hy; simp [hy])))
    · intro x hx y hy
      exact Or.inl (not_ws_of_word x (hu x (List.mem_of_mem_getLast? hx)))
  rw [hcol]
  apply stripWs_id
  · intro d hd
    cases u with
    | nil => exact absurd rfl hu0
    | cons a t =>
      simp only [List.cons_append, List.head?_cons, Option.some.injEq] at hd
      subst hd
      exact not_ws_of_word a (hu a (List.mem_cons_self _ _))
  · intro d hd
    have hvs : v.getLast?.isSome := List.getLast?_isSome.mpr hv0
    have : (u ++ ' ' :: v).getLast? = v.getLast? := by
      rw [show u ++ ' ' :: v = (u ++ [' ']) ++ v by simp, List.getLast?_append,
        Option.or_of_isSome hvs]
    rw [this] at hd
    exact not_ws_of_word d (hv d (List.mem_of_mem_getLast? hd))

/-- Witness for the amended C5: the period of "J.Crew" becomes a space. -/
theorem c5_amended_witness : preClean ("J.Crew").data = ("J Crew").data :=
  c5_amended_punct_becomes_space ("J").data ("Crew").data '.'
    (by decide) (by decide) (by decide) (by decide) (by decide) (by decide)

theorem lo_map_lo_map (w : List Char) : (w.map lo1).map lo1 = w.map lo1 := by
  rw [List.map_map]
  exact List.map_congr_left (fun c _ => lo1_lo1 c)

theorem lo_map_up_map (w : List Char) : (w.map up1).map lo1 = w.map lo1 := by
  rw [List.map_map]
  exact List.map_congr_left (fun c _ => lo1_up1 c)

theorem up_map_up_map (w : List Char) : (w.map up1).map up1 = w.map up1 := by
  rw [List.map_map]
  exact List.map_congr_left (fun c _ => up1_up1 c)

theorem pyCap_lo_map (w : List Char) : (pyCapitalize w).map lo1 = w.map lo1 := by
  cases w with
  | nil => rfl
  | cons c cs =>
    simp only [pyCapitalize, List.map_cons, lo1_up1]
    rw [lo_map_lo_map cs]

theorem pyCap_idem (w : List Char) : pyCapitalize (pyCapitalize w) = pyCapitalize w := by
  cases w with
  | nil => rfl
  | cons c cs =>
    simp only [pyCapitalize, up1_up1, List.map_map, List.cons.injEq, true_and]
    exact List.map_congr_left (fun c _ => lo1_lo1 c)

theorem pyCap_length (w : List Char) : (pyCapitalize w).length = w.length := by
  cases w with
  | nil => rfl
  | cons c cs => simp [pyCapitalize]

theorem intercalate_cons_ne_nil (sep x : List Char) (ts : List (List Char)) (h : ts ≠ []) :
    List.intercalate sep (x :: ts) = x ++ sep ++ List.intercalate sep ts := by
  cases ts with
  | nil => exact absurd rfl h
  | cons y ts' => simp [List.intercalate, List.intersperse_cons_cons]

theorem map_intercalate_hyphen (g : Char → Char) (hg : g '-' = '-') :
    ∀ ts : List (List Char),
      (List.intercalate ['-'] ts).map g = List.intercalate ['-'] (ts.map (List.map g)) := by
  intro ts
  induction ts with
  | nil => rfl
  | cons t ts ih =>
    cases ts with
    | nil => simp [intercalate_single]
    | cons u ts' =>
      rw [intercalate_cons_ne_nil ['-'] t (u :: ts') (by simp),
        List.map_append, List.map_append, ih]
      rw [show List.map g ['-'] = ['-'] by simp [hg]]
      rw [← intercalate_cons_ne_nil ['-'] (t.map g)
        (List.map (List.map g) (u :: ts')) (by simp)]
      rfl

theorem length_intercalate_map (g : List Char → List Char)
    (hg : ∀ t, (g t).length = t.length) :
    ∀ ts : List (List Char),
      (List.intercalate ['-'] (ts.map g)).length = (List.intercalate ['-'] ts).length := by
  intro ts
  induction ts with
  | nil => rfl
  | cons t ts ih =>
    cases ts with
    | nil => simp [intercalate_single, hg]
    | cons u ts' =>
      rw [List.map_cons,
        intercalate_cons_ne_nil ['-'] (g t) ((u :: ts').map g) (by simp),
        intercalate_cons_ne_nil ['-'] t (u :: ts') (by simp)]
      simp only [List.length_append, hg]
      omega

theorem smartCase_lo_map (w : List Char) (f : Bool) :
    (smartCase w f).map lo1 = w.map lo1 := by
  simp only [smartCase, List.elem_eq_mem, decide_eq_true_eq, Bool.and_eq_true, beq_iff_eq]
  by_cases h1 : w.map lo1 ∈ STOPWORDS
  · rw [if_pos h1]
    cases f with
    | true => simp only [if_true]; exact pyCap_lo_map w
    | false => simp only [Bool.false_eq_true, if_false]; exact lo_map_lo_map w
  · rw [if_neg h1]
    by_cases h2 : w.length = 2 ∧ w.map lo1 ∈ STATE_CODES
    · rw [if_pos h2]
      exact lo_map_up_map w
    · rw [if_neg h2]
      by_cases h3 : pyIsUpper w = true ∧ w.map lo1 ∈ ACRONYM_WL
      · rw [if_pos h3]
      · rw [if_neg h3]
        rw [map_intercalate_hyphen lo1 rfl, List.map_map]
        have hcg : List.map (List.map lo1 ∘ pyCapitalize) (splitOnHyphen w) =
            List.map (List.map lo1) (splitOnHyphen w) :=
          List.map_congr_left (fun t _ => pyCap_lo_map t)
        rw [hcg, ← map_intercalate_hyphen lo1 rfl]
        show ((List.intercalate ['-'] (splitOnHyphen w)).map lo1) = _
        unfold splitOnHyphen
        rw [List.intercalate_splitOn]

theorem smartCase_length (w : List Char) (f : Bool) :
    (smartCase w f).length = w.length := by
  simp only [smartCase, List.elem_eq_mem, decide_eq_true_eq, Bool.and_eq_true, beq_iff_eq]
  by_cases h1 : w.map lo1 ∈ STOPWORDS
  · rw [if_pos h1]
    cases f with
    | true => simp only [if_true]; exact pyCap_length w
    | false => simp only [Bool.false_eq_true, if_false]; exact List.length_map w lo1
  · rw [if_neg h1]
    by_cases h2 : w.length = 2 ∧ w.map lo1 ∈ STATE_CODES
    · rw [if_pos h2]
      exact List.length_map w up1
    · rw [if_neg h2]
      by_cases h3 : pyIsUpper w = true ∧ w.map lo1 ∈ ACRONYM_WL
      · rw [if_pos h3]
      · rw [if_neg h3]
        rw [length_intercalate_map pyCapitalize pyCap_length (splitOnHyphen w)]
        show (List.intercalate ['-'] (splitOnHyphen w)).length = _
        unfold splitOnHyphen
        rw [List.intercalate_splitOn]

theorem splitOnP_no_p (p : Char → Bool) :
    ∀ (l : List Char), ∀ t ∈ l.splitOnP p, ∀ y ∈ t, p y = false := by
  intro l
  induction l with
  | nil =>
    intro t ht y hy
    rw [List.splitOnP_nil] at ht
    rcases List.mem_singleton.mp ht
    simp at hy
  | cons c cs ih =>
    intro t ht y hy
    rw [List.splitOnP_cons] at ht
    by_cases hc : p c = true
    · rw [if_pos hc] at ht
      rcases List.mem_cons.mp ht with rfl | h'
      · simp at hy
      · exact ih t h' y hy
    · rw [if_neg hc] at ht
      cases hsp : cs.splitOnP p with
      | nil => exact absurd hsp (List.splitOnP_ne_nil p cs)
      | cons hd ts =>
        rw [hsp] at ht
        simp only [List.modifyHead] at ht
        rcases List.mem_cons.mp ht with rfl | h'
        · rcases List.mem_cons.mp hy with rfl | hy'
          · simpa using hc
          · exact ih hd (by rw [hsp]; exact List.mem_cons_self hd ts) y hy'
        · exact ih t (by rw [hsp]; exact List.mem_cons_of_mem hd h') y hy

theorem splitOnHyphen_no_hyphen (l : List Char) :
    ∀ t ∈ splitOnHyphen l, '-' ∉ t := by
  intro t ht hmem
  have := splitOnP_no_p (· == '-') l t ht '-' hmem
  simp at this

theorem splitOnHyphen_ne_nil (l : List Char) : splitOnHyphen l ≠ [] :=
  List.splitOnP_ne_nil _ l

theorem mem_intercalate_of_mem_part (sep : List Char) (x : Char) :
    ∀ (ts : List (List Char)) (t : List Char), t ∈ ts → x ∈ t →
      x ∈ List.intercalate sep ts := by
  intro ts
  induction ts with
  | nil => intro t ht _; simp at ht
  | cons u ts ih =>
    intro t ht hx
    cases ts with
    | nil =>
      rcases List.mem_cons.mp ht with rfl | h'
      · rw [intercalate_single]; exact hx
      · simp at h'
    | cons v ts' =>
      rw [intercalate_cons_ne_nil sep u (v :: ts') (by simp)]
      rcases List.mem_cons.mp ht with rfl | h'
      · exact List.mem_append.mpr (Or.inl (List.mem_append.mpr (Or.inl hx)))
      · exact List.mem_append.mpr (Or.inr (ih t h' hx))

theorem mem_of_mem_splitOnHyphen (l t : List Char) (ht : t ∈ splitOnHyphen l)
    (x : Char) (hx : x ∈ t) : x ∈ l := by
  have h := mem_intercalate_of_mem_part ['-'] x (splitOnHyphen l) t ht hx
  rw [show splitOnHyphen l = l.splitOn '-' from rfl, List.intercalate_splitOn] at h
  exact h

theorem mem_intercalate_decomp (sep x : Char) :
    ∀ ts : List (List Char), x ∈ List.intercalate [sep] ts →
      (∃ t ∈ ts, x ∈ t) ∨ x = sep := by
  intro ts
  induction ts with
  | nil => intro h; simp [List.intercalate] at h
  | cons u ts ih =>
    intro h
    cases ts with
    | nil =>
      rw [intercalate_single] at h
      exact Or.inl ⟨u, List.mem_singleton_self u, h⟩
    | cons v ts' =>
      rw [intercalate_cons_ne_nil [sep] u (v :: ts') (by simp)] at h
      rcases List.mem_append.mp h with h' | h'
      · rcases List.mem_append.mp h' with h'' | h''
        · exact Or.inl ⟨u, List.mem_cons_self _ _, h''⟩
        · exact Or.inr (List.mem_singleton.mp h'')
      · rcases ih h' with ⟨t, ht, hx⟩ | h''
        · exact Or.inl ⟨t, List.mem_cons_of_mem u ht, hx⟩
        · exact Or.inr h''

theorem pyCap_mem (t : List Char) (x : Char) (hx : x ∈ pyCapitalize t) :
    ∃ c ∈ t, x = up1 c ∨ x = lo1 c := by
  cases t with
  | nil => simp [pyCapitalize] at hx
  | cons a rest =>
    rcases List.mem_cons.mp hx with rfl | h'
    · exact ⟨a, List.mem_cons_self _ _, Or.inl rfl⟩
    · obtain ⟨c, hc, rfl⟩ := List.mem_map.mp h'
      exact ⟨c, List.mem_cons_of_mem a hc, Or.inr rfl⟩

theorem hyphen_mem_pyCap (t : List Char) (h : '-' ∈ pyCapitalize t) : '-' ∈ t := by
  obtain ⟨c, hc, hcase⟩ := pyCap_mem t '-' h
  rcases hcase with h' | h'
  · rw [show (('-' : Char) = up1 c) = (up1 c = '-') from propext eq_comm, hy_up1] at h'
    exact h' ▸ hc
  · rw [show (('-' : Char) = lo1 c) = (lo1 c = '-') from propext eq_comm, hy_lo1] at h'
    exact h' ▸ hc

/-- Each character of a `_smart_case` output is a character of the input
word, possibly upper- or lowercased. -/
theorem smartCase_mem (w : List Char) (f : Bool) (x : Char)
    (hx : x ∈ smartCase w f) : ∃ c ∈ w, x = c ∨ x = up1 c ∨ x = lo1 c := by
  revert hx
  simp only [smartCase, List.elem_eq_mem, decide_eq_true_eq, Bool.and_eq_true, beq_iff_eq]
  by_cases h1 : w.map lo1 ∈ STOPWORDS
  · rw [if_pos h1]
    cases f with
    | true =>
      simp only [if_true]
      intro hx
      obtain ⟨c, hc, hcase⟩ := pyCap_mem w x hx
      exact ⟨c, hc, Or.inr (by tauto)⟩
    | false =>
      simp only [Bool.false_eq_true, if_false]
      intro hx
      obtain ⟨c, hc, rfl⟩ := List.mem_map.mp hx
      exact ⟨c, hc, Or.inr (Or.inr rfl)⟩
  · rw [if_neg h1]
    by_cases h2 : w.length = 2 ∧ w.map lo1 ∈ STATE_CODES
    · rw [if_pos h2]
      intro hx
      obtain ⟨c, hc, rfl⟩ := List.mem_map.mp hx
      exact ⟨c, hc, Or.inr (Or.inl rfl)⟩
    · rw [if_neg h2]
      by_cases h3 : pyIsUpper w = true ∧ w.map lo1 ∈ ACRONYM_WL
      · rw [if_pos h3]
        intro hx
        exact ⟨x, hx, Or.inl rfl⟩
      · rw [if_neg h3]
        intro hx
        rcases mem_intercalate_decomp '-' x _ hx with ⟨t, ht, hxt⟩ | rfl
        · obtain ⟨t', ht', rfl⟩ := List.mem_map.mp ht
          obtain ⟨c, hc, hcase⟩ := pyCap_mem t' x hxt
          exact ⟨c, mem_of_mem_splitOnHyphen w t' ht' c hc, Or.inr (by tauto)⟩
        · by_cases hh : '-' ∈ w
          · exact ⟨'-', hh, Or.inl rfl⟩
          · rw [splitOnHyphen_eq_single w hh] at hx
            simp only [List.map_cons, List.map_nil, intercalate_single] at hx
            obtain ⟨c, hc, hcase⟩ := pyCap_mem w '-' hx
            exact ⟨c, hc, Or.inr (by tauto)⟩

theorem pyIsUpper_false_of_mem (r : List Char) (x : Char) (hx : x ∈ r)
    (hc : isCased x = true) (hu : isUpA x = false) : pyIsUpper r = false := by
  have hall : r.all (fun c => !isCased c || isUpA c) = false := by
    rw [List.all_eq_false]
    exact ⟨x, hx, by simp [hc, hu]⟩
  simp [pyIsUpper, hall]

/-- `_smart_case` is idempotent: applying it to its own output (with the same
`first` flag) changes nothing. -/
theorem smartCase_idem (w : List Char) (f : Bool) :
    smartCase (smartCase w f) f = smartCase w f := by
  by_cases h1 : w.map lo1 ∈ STOPWORDS
  · cases f with
    | true =>
      have hin : smartCase w true = pyCapitalize w := by
        simp only [smartCase, List.elem_eq_mem, decide_eq_true_eq]
        rw [if_pos h1]
        simp only [if_true]
      rw [hin]
      have h1' : (pyCapitalize w).map lo1 ∈ STOPWORDS := by
        rw [pyCap_lo_map]; exact h1
      simp only [smartCase, List.elem_eq_mem, decide_eq_true_eq]
      rw [if_pos h1']
      simp only [if_true]
      exact pyCap_idem w
    | false =>
      have hin : smartCase w false = w.map lo1 := by
        simp only [smartCase, List.elem_eq_mem, decide_eq_true_eq]
        rw [if_pos h1]
        simp only [Bool.false_eq_true, if_false]
      rw [hin]
      have h1' : (w.map lo1).map lo1 ∈ STOPWORDS := by
        rw [lo_map_lo_map]; exact h1
      simp only [smartCase, List.elem_eq_mem, decide_eq_true_eq]
      rw [if_pos h1']
      simp only [Bool.false_eq_true, if_false]
      exact lo_map_lo_map w
  · by_cases h2 : w.length = 2 ∧ w.map lo1 ∈ STATE_CODES
    · have hin : smartCase w f = w.map up1 := by
        simp only [smartCase, List.elem_eq_mem, decide_eq_true_eq, Bool.and_eq_true,
          beq_iff_eq]
        rw [if_neg h1, if_pos h2]
      rw [hin]
      have h1' : (w.map up1).map lo1 ∉ STOPWORDS := by
        rw [lo_map_up_map]; exact h1
      have h2' : (w.map up1).length = 2 ∧ (w.map up1).map lo1 ∈ STATE_CODES := by
        refine ⟨?_, by rw [lo_map_up_map]; exact h2.2⟩
        rw [List.length_map]
        exact h2.1
      simp only [smartCase, List.elem_eq_mem, decide_eq_true_eq, Bool.and_eq_true,
        beq_iff_eq]
      rw [if_neg h1', if_pos h2']
      exact up_map_up_map w
    · by_cases h3 : pyIsUpper w = true ∧ w.map lo1 ∈ ACRONYM_WL
      · have hin : smartCase w f = w := by
          simp only [smartCase, List.elem_eq_mem, decide_eq_true_eq, Bool.and_eq_true,
            beq_iff_eq]
          rw [if_neg h1, if_neg h2, if_pos h3]
        rw [hin, hin]
      · have hin : smartCase w f =
            List.intercalate ['-'] ((splitOnHyphen w).map pyCapitalize) := by
          simp only [smartCase, List.elem_eq_mem, decide_eq_true_eq, Bool.and_eq_true,
            beq_iff_eq]
          rw [if_neg h1, if_neg h2, if_neg h3]
        rw [hin]
        set r := List.intercalate ['-'] ((splitOnHyphen w).map pyCapitalize) with hr
        have hlo : r.map lo1 = w.map lo1 := by
          rw [← hin]; exact smartCase_lo_map w f
        have hlen : r.length = w.length := by
          rw [← hin]; exact smartCase_length w f
        have h3' : ¬ (pyIsUpper r = true ∧ r.map lo1 ∈ ACRONYM_WL) := by
          rintro ⟨hru, hrwl⟩
          rw [hlo] at hrwl
          have hkey := (by decide : ∀ low ∈ ACRONYM_WL, low = ("ct").data ∨
            ∃ ℓ ∈ low.tail, isCased ℓ = true ∧ isUpA ℓ = false) _ hrwl
          rcases hkey with hct | ⟨ℓ, hℓt, hcase, hupa⟩
          · refine h2 ⟨?_, by rw [hct]; decide⟩
            have h' := congrArg List.length hct
            simpa using h'
          · have hnh : ¬ '-' ∈ w := by
              intro hh
              have hm : lo1 '-' ∈ w.map lo1 := List.mem_map_of_mem lo1 hh
              exact (by decide : ∀ low ∈ ACRONYM_WL, ('-' : Char) ∉ low) _ hrwl hm
            have hps : splitOnHyphen w = [w] := splitOnHyphen_eq_single w hnh
            have hr2 : r = pyCapitalize w := by
              rw [hr, hps]
              simp [intercalate_single]
            cases w with
            | nil => simp at hℓt
            | cons w0 wrest =>
              have hmem : ℓ ∈ List.map lo1 wrest := by simpa using hℓt
              have hfalse : pyIsUpper r = false := by
                rw [hr2]
                exact pyIsUpper_false_of_mem _ ℓ (List.mem_cons_of_mem _ hmem) hcase hupa
              rw [hfalse] at hru
              exact absurd hru (by simp)
        simp only [smartCase, List.elem_eq_mem, decide_eq_true_eq, Bool.and_eq_true,
          beq_iff_eq]
        rw [if_neg (by rw [hlo]; exact h1),
          if_neg (by rw [hlen, hlo]; exact h2),
          if_neg h3']
        have hparts : splitOnHyphen r = (splitOnHyphen w).map pyCapitalize := by
          show r.splitOn '-' = _
          rw [hr]
          apply List.splitOn_intercalate
          · intro l hl
            obtain ⟨t, ht, rfl⟩ := List.mem_map.mp hl
            intro hmem
            exact splitOnHyphen_no_hyphen w t ht (hyphen_mem_pyCap t hmem)
          · simp [splitOnHyphen_ne_nil w]
        rw [hparts, List.map_map]
        have hidem : List.map (pyCapitalize ∘ pyCapitalize) (splitOnHyphen w) =
            List.map pyCapitalize (splitOnHyphen w) :=
          List.map_congr_left (fun t _ => pyCap_idem t)
        rw [hidem]

theorem firstMatch_none_spec (p : Nat → Bool) :
    ∀ (fuel start : Nat), firstMatch p start fuel = none →
      ∀ j, start ≤ j → j < start + fuel → p j = false := by
  intro fuel
  induction fuel with
  | zero => intro start _ j _ hj2; omega
  | succ f ih =>
    intro start h j hj1 hj2
    simp only [firstMatch] at h
    by_cases hp : p start = true
    · rw [if_pos hp] at h; cases h
    · rw [if_neg hp] at h
      rcases Nat.eq_or_lt_of_le hj1 with rfl | hlt
      · simpa using hp
      · exact ih (start + 1) h j (Nat.succ_le_of_lt hlt) (by omega)

theorem canMatchSuffix_nil : canMatchSuffix [] = false := rfl

theorem canMatchCo_nil : canMatchCo [] = false := rfl

theorem suffixStart_some_lt (s : List Char) (i : Nat) (h : suffixStart s = some i) :
    i < s.length ∧ canMatchSuffix (s.drop i) = true := by
  obtain ⟨hp, _, _⟩ := firstMatch_some_spec _ _ _ _ h
  refine ⟨?_, hp⟩
  by_contra hge
  rw [List.drop_eq_nil_of_le (le_of_not_lt hge)] at hp
  rw [canMatchSuffix_nil] at hp
  cases hp

theorem suffixStart_none_of_strip_eq (s : List Char) (h : suffixStrip s = s) :
    suffixStart s = none := by
  cases hs : suffixStart s with
  | none => rfl
  | some i =>
    obtain ⟨hlt, _⟩ := suffixStart_some_lt s i hs
    unfold suffixStrip at h
    rw [hs] at h
    have := congrArg List.length h
    rw [List.length_take] at this
    omega

theorem canMatchSuffix_of_co (t : List Char) (h : canMatchCo t = true) :
    canMatchSuffix t = true := by
  obtain ⟨ws, core, rfl, hne, hws, hco⟩ := canMatchCo_decomp t h
  have halt : altMatch core = true := by
    have hmem : core.map lo1 ∈ coCores := by simpa [List.elem_eq_mem] using hco
    have hfix : core.map lo1 ∈ fixedSuffixes := by
      rcases (by simpa [coCores] using hmem : core.map lo1 = ("co").data ∨
        core.map lo1 = ("co.").data) with h' | h' <;> rw [h'] <;> decide
    unfold altMatch
    simp only [List.elem_eq_mem, Bool.or_eq_true, decide_eq_true_eq]
    exact Or.inl (Or.inl (Or.inl hfix))
  have := canMatchSuffix_of_decomp ws core [] hne hws halt rfl
  simpa using this

theorem coStart_none_of_suffixStart_none (s : List Char)
    (h : suffixStart s = none) : coStart s = none := by
  cases hc : coStart s with
  | none => rfl
  | some i =>
    obtain ⟨hp, _, _⟩ := firstMatch_some_spec _ _ _ _ hc
    have hi : i < s.length := by
      by_contra hge
      rw [List.drop_eq_nil_of_le (le_of_not_lt hge), canMatchCo_nil] at hp
      cases hp
    have hsuf := canMatchSuffix_of_co _ hp
    have := firstMatch_none_spec _ _ _ h i (Nat.zero_le i) (by omega)
    rw [hsuf] at this
    cases this

theorem suffixStrip_ne_of_match (r : List Char) (i : Nat) (hi : i < r.length)
    (hm : canMatchSuffix (r.drop i) = true) : suffixStrip r ≠ r := by
  intro heq
  have hnone := suffixStart_none_of_strip_eq r heq
  have := firstMatch_none_spec _ _ _ hnone i (Nat.zero_le i) (by omega)
  rw [hm] at this
  cases this

theorem mem_of_mem_takeWhile (p : Char → Bool) (l : List Char) (x : Char)
    (h : x ∈ l.takeWhile p) : x ∈ l := by
  induction l with
  | nil => simpa using h
  | cons a t ih =>
    rw [List.takeWhile_cons] at h
    by_cases hp : p a = true
    · rw [if_pos hp] at h
      rcases List.mem_cons.mp h with rfl | h'
      · exact List.mem_cons_self _ _
      · exact List.mem_cons_of_mem a (ih h')
    · rw [if_neg hp] at h
      simp at h

theorem mem_of_mem_dropWhile (p : Char → Bool) (l : List Char) (x : Char)
    (h : x ∈ l.dropWhile p) : x ∈ l := by
  induction l with
  | nil => simpa using h
  | cons a t ih =>
    rw [List.dropWhile_cons] at h
    by_cases hp : p a = true
    · rw [if_pos hp] at h
      exact List.mem_cons_of_mem a (ih h)
    · rw [if_neg hp] at h
      exact h

theorem mem_of_mem_stripWs (l : List Char) (x : Char) (h : x ∈ stripWs l) : x ∈ l := by
  unfold stripWs at h
  rw [List.mem_reverse] at h
  have h1 := mem_of_mem_dropWhile isWs _ x h
  rw [List.mem_reverse] at h1
  exact mem_of_mem_dropWhile isWs _ x h1

theorem mem_of_mem_collapseF :
    ∀ (fuel : Nat) (l : List Char) (x : Char), x ∈ collapseF fuel l →
      x ∈ l ∨ x = ' ' := by
  intro fuel
  induction fuel with
  | zero =>
    intro l x h
    cases l <;> simp [collapseF] at h
  | succ f ih =>
    intro l x h
    cases l with
    | nil => simp [collapseF] at h
    | cons c cs =>
      simp only [collapseF] at h
      by_cases hc : isWs c = true
      · rw [if_pos hc] at h
        by_cases hh : headIsWs cs = true
        · rw [if_pos hh] at h
          rcases List.mem_cons.mp h with rfl | h'
          · exact Or.inr rfl
          · rcases ih _ x h' with h'' | h''
            · exact Or.inl (List.mem_cons_of_mem c (mem_of_mem_dropWhile isWs cs x h''))
            · exact Or.inr h''
        · rw [if_neg hh] at h
          rcases List.mem_cons.mp h with rfl | h'
          · exact Or.inl (List.mem_cons_self _ _)
          · rcases ih _ x h' with h'' | h''
            · exact Or.inl (List.mem_cons_of_mem c h'')
            · exact Or.inr h''
      · rw [if_neg hc] at h
        rcases List.mem_cons.mp h with rfl | h'
        · exact Or.inl (List.mem_cons_self _ _)
        · rcases ih _ x h' with h'' | h''
          · exact Or.inl (List.mem_cons_of_mem c h'')
          · exact Or.inr h''

theorem mem_of_mem_collapseWs (l : List Char) (x : Char) (h : x ∈ collapseWs l) :
    x ∈ l ∨ x = ' ' :=
  mem_of_mem_collapseF l.length l x h

theorem notApos_of_keep (c : Char) (h : keepChar c = true) : notApos c = true := by
  cases hn : notApos c with
  | true => rfl
  | false =>
    simp only [notApos, Bool.not_eq_false', Bool.or_eq_true, decide_eq_true_eq] at hn
    rcases hn with rfl | rfl <;> exact absurd h (by decide)

/-- Every character of `preClean s` is in the kept class (word characters,
ampersand, hyphen) or a space; in particular there is no whitespace other
than spaces and no apostrophe. -/
theorem preClean_chars (s : List Char) (x : Char) (h : x ∈ preClean s) :
    keepChar x = true := by
  unfold preClean at h
  have h1 := mem_of_mem_stripWs _ x h
  rcases mem_of_mem_collapseWs _ x h1 with h2 | rfl
  · obtain ⟨c, _, rfl⟩ := List.mem_map.mp h2
    by_cases hk : keepChar c = true
    · rwa [if_pos hk]
    · rw [if_neg hk]; decide
  · decide

theorem splitF_spec (fuel : Nat) :
    ∀ l : List Char, l.length ≤ fuel → ∀ t ∈ splitF fuel l,
      t ≠ [] ∧ ∀ c ∈ t, isWs c = false ∧ c ∈ l := by
  induction fuel with
  | zero =>
    intro l hl t ht
    have : l = [] := List.length_eq_zero.mp (Nat.le_zero.mp hl)
    subst this
    simp [splitF] at ht
  | succ f ih =>
    intro l hl t ht
    cases l with
    | nil => simp [splitF] at ht
    | cons c cs =>
      simp only [List.length_cons, Nat.succ_le_succ_iff] at hl
      simp only [splitF] at ht
      by_cases hc : isWs c = true
      · rw [if_pos hc] at ht
        obtain ⟨hne, hch⟩ := ih cs hl t ht
        exact ⟨hne, fun d hd => ⟨(hch d hd).1, List.mem_cons_of_mem c (hch d hd).2⟩⟩
      · rw [if_neg hc] at ht
        rcases List.mem_cons.mp ht with rfl | h'
        · refine ⟨by simp, ?_⟩
          intro d hd
          rcases List.mem_cons.mp hd with rfl | hd'
          · exact ⟨by simpa using hc, List.mem_cons_self _ _⟩
          · have h1 := List.mem_takeWhile_imp hd'
            have h2 := mem_of_mem_takeWhile _ _ _ hd'
            simp only [Bool.not_eq_true'] at h1
            exact ⟨h1, List.mem_cons_of_mem c h2⟩
        · have hd := dropWhile_length_le (fun d => !isWs d) cs
          obtain ⟨hne, hch⟩ := ih _ (le_trans hd hl) t h'
          refine ⟨hne, fun d hdm => ⟨(hch d hdm).1, ?_⟩⟩
          exact List.mem_cons_of_mem c
            (mem_of_mem_dropWhile _ cs d (hch d hdm).2)

/-- Each token produced by `splitWs` is nonempty, whitespace-free, and made
of characters of the input. -/
theorem splitWs_spec (l : List Char) :
    ∀ t ∈ splitWs l, t ≠ [] ∧ ∀ c ∈ t, isWs c = false ∧ c ∈ l :=
  splitF_spec l.length l le_rfl

theorem takeWhile_append_stop (p : Char → Bool) (t : List Char) (y : Char)
    (rest : List Char) (ht : ∀ x ∈ t, p x = true) (hy : p y = false) :
    (t ++ y :: rest).takeWhile p = t := by
  induction t with
  | nil => simp [List.takeWhile_cons, hy]
  | cons a t' ih =>
    rw [List.cons_append, List.takeWhile_cons,
      if_pos (ht a (List.mem_cons_self _ _)), ih (fun x hx => ht x (List.mem_cons_of_mem a hx))]

theorem dropWhile_append_stop (p : Char → Bool) (t : List Char) (y : Char)
    (rest : List Char) (ht : ∀ x ∈ t, p x = true) (hy : p y = false) :
    (t ++ y :: rest).dropWhile p = y :: rest := by
  induction t with
  | nil => simp [List.dropWhile_cons, hy]
  | cons a t' ih =>
    rw [List.cons_append, List.dropWhile_cons,
      if_pos (ht a (List.mem_cons_self _ _)), ih (fun x hx => ht x (List.mem_cons_of_mem a hx))]

theorem splitWs_single (t : List Char) (hne : t ≠ [])
    (hch : ∀ c ∈ t, isWs c = false) : splitWs t = [t] := by
  cases t with
  | nil => exact absurd rfl hne
  | cons c cs =>
    rw [splitWs_cons, if_neg (by simp [hch c (List.mem_cons_self _ _)])]
    have h1 : cs.takeWhile (fun d => !isWs d) = cs := by
      rw [List.takeWhile_eq_self_iff]
      intro d hd
      simp [hch d (List.mem_cons_of_mem c hd)]
    have h2 : cs.dropWhile (fun d => !isWs d) = [] := by
      rw [List.dropWhile_eq_nil_iff]
      intro d hd
      simp [hch d (List.mem_cons_of_mem c hd)]
    rw [h1, h2, splitWs_nil]

theorem splitWs_token_prepend (t rest : List Char) (hne : t ≠ [])
    (hch : ∀ c ∈ t, isWs c = false) :
    splitWs (t ++ ' ' :: rest) = t :: splitWs rest := by
  cases t with
  | nil => exact absurd rfl hne
  | cons c cs =>
    rw [List.cons_append, splitWs_cons,
      if_neg (by simp [hch c (List.mem_cons_self _ _)])]
    rw [takeWhile_append_stop _ cs ' ' rest
      (fun x hx => by simp [hch x (List.mem_cons_of_mem c hx)]) (by decide)]
    rw [dropWhile_append_stop _ cs ' ' rest
      (fun x hx => by simp [hch x (List.mem_cons_of_mem c hx)]) (by decide)]
    rw [splitWs_cons, if_pos (by decide)]

theorem joinTokens_cons_ne_nil (t : List Char) (ts : List (List Char)) (h : ts ≠ []) :
    joinTokens (t :: ts) = t ++ ' ' :: joinTokens ts := by
  unfold joinTokens
  rw [intercalate_cons_ne_nil [' '] t ts h]
  simp

/-- `splitWs` is a left inverse of `joinTokens` on lists of nonempty
whitespace-free tokens. -/
theorem splitWs_joinTokens (ts : List (List Char))
    (h : ∀ t ∈ ts, t ≠ [] ∧ ∀ c ∈ t, isWs c = false) :
    splitWs (joinTokens ts) = ts := by
  induction ts with
  | nil => rfl
  | cons t ts ih =>
    obtain ⟨hne, hch⟩ := h t (List.mem_cons_self _ _)
    cases ts with
    | nil =>
      show splitWs (List.intercalate [' '] [t]) = [t]
      rw [intercalate_single]
      exact splitWs_single t hne hch
    | cons u ts' =>
      rw [joinTokens_cons_ne_nil t (u :: ts') (by simp),
        splitWs_token_prepend t _ hne hch,
        ih (fun v hv => h v (List.mem_cons_of_mem t hv))]

theorem mem_joinTokens_decomp (x : Char) (ts : List (List Char))
    (h : x ∈ joinTokens ts) : (∃ t ∈ ts, x ∈ t) ∨ x = ' ' :=
  mem_intercalate_decomp ' ' x ts h

theorem joinTokens_head_no_ws (ts : List (List Char))
    (h : ∀ t ∈ ts, t ≠ [] ∧ ∀ c ∈ t, isWs c = false) :
    ∀ c, (joinTokens ts).head? = some c → isWs c = false := by
  intro c hc
  cases ts with
  | nil => simp [joinTokens, List.intercalate] at hc
  | cons t ts' =>
    obtain ⟨hne, hch⟩ := h t (List.mem_cons_self _ _)
    cases t with
    | nil => exact absurd rfl hne
    | cons a t'' =>
      have : (joinTokens ((a :: t'') :: ts')).head? = some a := by
        cases ts' with
        | nil =>
          show (List.intercalate [' '] [a :: t'']).head? = some a
          rw [intercalate_single]
          rfl
        | cons u ts'' =>
          rw [joinTokens_cons_ne_nil _ (u :: ts'') (by simp)]
          rfl
      rw [this] at hc
      obtain rfl : a = c := by simpa using hc
      exact hch a (List.mem_cons_self _ _)

theorem joinTokens_ne_nil (ts : List (List Char)) (hts : ts ≠ [])
    (h : ∀ t ∈ ts, t ≠ [] ∧ ∀ c ∈ t, isWs c = false) : joinTokens ts ≠ [] := by
  cases ts with
  | nil => exact absurd rfl hts
  | cons t ts' =>
    obtain ⟨hne, _⟩ := h t (List.mem_cons_self _ _)
    cases ts' with
    | nil =>
      show List.intercalate [' '] [t] ≠ []
      rw [intercalate_single]
      exact hne
    | cons u ts'' =>
      rw [joinTokens_cons_ne_nil _ (u :: ts'') (by simp)]
      intro hcontra
      cases t with
      | nil => exact absurd rfl hne
      | cons a t'' => simp at hcontra

theorem joinTokens_last_no_ws (ts : List (List Char))
    (h : ∀ t ∈ ts, t ≠ [] ∧ ∀ c ∈ t, isWs c = false) :
    ∀ c, (joinTokens ts).getLast? = some c → isWs c = false := by
  induction ts with
  | nil => intro c hc; simp [joinTokens, List.intercalate] at hc
  | cons t ts' ih =>
    intro c hc
    obtain ⟨hne, hch⟩ := h t (List.mem_cons_self _ _)
    cases ts' with
    | nil =>
      rw [show joinTokens [t] = t from intercalate_single [' '] t] at hc
      exact hch c (List.mem_of_mem_getLast? hc)
    | cons u ts'' =>
      rw [joinTokens_cons_ne_nil _ (u :: ts'') (by simp)] at hc
      have hj : joinTokens (u :: ts'') ≠ [] :=
        joinTokens_ne_nil _ (by simp) (fun v hv => h v (List.mem_cons_of_mem t hv))
      have hs : (joinTokens (u :: ts'')).getLast?.isSome := by
        rw [Option.isSome_iff_exists]
        cases hj' : (joinTokens (u :: ts'')).getLast? with
        | none => exact absurd (List.getLast?_eq_none_iff.mp hj') hj
        | some d => exact ⟨d, rfl⟩
      rw [show t ++ ' ' :: joinTokens (u :: ts'') = (t ++ [' ']) ++ joinTokens (u :: ts'')
          by simp, List.getLast?_append, Option.or_of_isSome hs] at hc
      exact ih (fun v hv => h v (List.mem_cons_of_mem t hv)) c hc

theorem chain'_joinTokens (ts : List (List Char))
    (h : ∀ t ∈ ts, t ≠ [] ∧ ∀ c ∈ t, isWs c = false) :
    (joinTokens ts).Chain' (fun a b => isWs a = false ∨ isWs b = false) := by
  induction ts with
  | nil => exact List.chain'_nil
  | cons t ts' ih =>
    obtain ⟨hne, hch⟩ := h t (List.mem_cons_self _ _)
    cases ts' with
    | nil =>
      rw [show joinTokens [t] = t from intercalate_single [' '] t]
      exact chain'_no_ws t hch
    | cons u ts'' =>
      rw [joinTokens_cons_ne_nil _ (u :: ts'') (by simp)]
      rw [List.chain'_append]
      refine ⟨chain'_no_ws t hch, ?_, ?_⟩
      · rw [List.chain'_cons']
        refine ⟨?_, ih (fun v hv => h v (List.mem_cons_of_mem t hv))⟩
        intro y hy
        exact Or.inr (joinTokens_head_no_ws _ (fun v hv => h v (List.mem_cons_of_mem t hv)) y hy)
      · intro x hx y _
        exact Or.inl (hch x (List.mem_of_mem_getLast? hx))

theorem caseTokens_idem (ts : List (List Char)) :
    ∀ f : Bool, caseTokens f (caseTokens f ts) = caseTokens f ts := by
  induction ts with
  | nil => intro f; rfl
  | cons t ts ih =>
    intro f
    simp only [caseTokens, smartCase_idem, ih false]

theorem caseTokens_spec (ts : List (List Char)) :
    ∀ f : Bool, ∀ u ∈ caseTokens f ts, ∃ t ∈ ts, u = smartCase t f ∨ u = smartCase t false := by
  induction ts with
  | nil => intro f u hu; simp [caseTokens] at hu
  | cons t ts ih =>
    intro f u hu
    rcases List.mem_cons.mp hu with rfl | h'
    · exact ⟨t, List.mem_cons_self _ _, Or.inl rfl⟩
    · obtain ⟨v, hv, hcase⟩ := ih false u h'
      exact ⟨v, List.mem_cons_of_mem t hv, Or.inr (by rcases hcase with h | h <;> exact h)⟩

/-- `_smart_case` preserves nonemptiness, whitespace-freeness and the kept
character class. -/
theorem smartCase_good (t : List Char) (f : Bool) (hne : t ≠ [])
    (hch : ∀ c ∈ t, isWs c = false ∧ keepChar c = true) :
    smartCase t f ≠ [] ∧ ∀ c ∈ smartCase t f, isWs c = false ∧ keepChar c = true := by
  constructor
  · intro hcontra
    have := smartCase_length t f
    rw [hcontra] at this
    simp only [List.length_nil] at this
    exact hne (List.length_eq_zero.mp this.symm)
  · intro c hc
    obtain ⟨d, hd, hcase⟩ := smartCase_mem t f c hc
    obtain ⟨hws, hkp⟩ := hch d hd
    rcases hcase with rfl | rfl | rfl
    · exact ⟨hws, hkp⟩
    · rw [isWs_up1, keep_up1]
      exact ⟨hws, hkp⟩
    · rw [isWs_lo1, keep_lo1]
      exact ⟨hws, hkp⟩

theorem joinTokens_append_single (ts : List (List Char)) (t : List Char) (h : ts ≠ []) :
    joinTokens (ts ++ [t]) = joinTokens ts ++ ' ' :: t := by
  induction ts with
  | nil => exact absurd rfl h
  | cons u ts' ih =>
    cases ts' with
    | nil =>
      show joinTokens [u, t] = joinTokens [u] ++ ' ' :: t
      rw [joinTokens_cons_ne_nil u [t] (by simp),
        show joinTokens [t] = t from intercalate_single [' '] t,
        show joinTokens [u] = u from intercalate_single [' '] u]
    | cons v ts'' =>
      rw [show (u :: v :: ts'') ++ [t] = u :: ((v :: ts'') ++ [t]) from rfl,
        joinTokens_cons_ne_nil u ((v :: ts'') ++ [t]) (by simp),
        ih (by simp),
        joinTokens_cons_ne_nil u (v :: ts'') (by simp)]
      simp

/-- Claim C1, amended: the normalizer is idempotent exactly on outputs with
no residual legal suffix — for every input string `s`, if suffix stripping
leaves `cleanL s` unchanged (`cleanL` is `clean_company_name` on the
character-list level), then re-running the whole normalizer on `cleanL s`
returns it unchanged. In general a second run strips a further suffix, see
the counterexample. -/
theorem cleanL_idem_of_suffix_free (s : List Char)
    (h0 : suffixStrip (cleanL s) = cleanL s) :
    cleanL (cleanL s) = cleanL s := by
  obtain ⟨r, hr0⟩ : ∃ r, cleanL s = r := ⟨_, rfl⟩
  rw [hr0] at h0 ⊢
  obtain ⟨s5, hs5⟩ : ∃ s5,
      (if ampCoCheck (stripWs (suffixStrip (preClean s))) then
        stripWs (suffixStrip (preClean s))
      else coStrip (stripWs (suffixStrip (preClean s)))) = s5 := ⟨_, rfl⟩
  obtain ⟨styled, hstyled⟩ : ∃ st, caseTokens true (splitWs s5) = st := ⟨_, rfl⟩
  have hr : r = joinTokens
      (if styled.getLast? = some ['&'] then styled ++ [['C', 'o']] else styled) := by
    rw [← hr0, ← hstyled, ← hs5]
    rfl
  have htoks := splitWs_spec s5
  have hs5chars : ∀ c ∈ s5, keepChar c = true := by
    intro c hc
    rw [← hs5] at hc
    have hc4 : c ∈ stripWs (suffixStrip (preClean s)) := by
      by_cases hamp : ampCoCheck (stripWs (suffixStrip (preClean s))) = true
      · rwa [if_pos hamp] at hc
      · rw [if_neg hamp] at hc
        unfold coStrip at hc
        cases hcs : coStart (stripWs (suffixStrip (preClean s))) with
        | none => rw [hcs] at hc; exact hc
        | some i => rw [hcs] at hc; exact List.take_subset i _ hc
    have hc3 : c ∈ suffixStrip (preClean s) := mem_of_mem_stripWs _ c hc4
    have hc2 : c ∈ preClean s := by
      unfold suffixStrip at hc3
      cases hss : suffixStart (preClean s) with
      | none => rw [hss] at hc3; exact hc3
      | some i => rw [hss] at hc3; exact List.take_subset i _ hc3
    exact preClean_chars s c hc2
  have hgood : ∀ t ∈ styled, t ≠ [] ∧ ∀ c ∈ t, isWs c = false ∧ keepChar c = true := by
    intro t ht
    rw [← hstyled] at ht
    obtain ⟨v, hv, hcase⟩ := caseTokens_spec (splitWs s5) true t ht
    obtain ⟨hvne, hvch⟩ := htoks v hv
    have hv' : ∀ c ∈ v, isWs c = false ∧ keepChar c = true :=
      fun c hc => ⟨(hvch c hc).1, hs5chars c (hvch c hc).2⟩
    rcases hcase with rfl | rfl
    · exact smartCase_good v true hvne hv'
    · exact smartCase_good v false hvne hv'
  have hnorep : styled.getLast? ≠ some ['&'] := by
    intro hlast
    have hstne : styled ≠ [] := by
      intro hnil
      rw [hnil] at hlast
      simp at hlast
    have hrr : r = joinTokens styled ++ ' ' :: ['C', 'o'] := by
      rw [hr, if_pos hlast]
      exact joinTokens_append_single styled ['C', 'o'] hstne
    have hm : canMatchSuffix (r.drop (joinTokens styled).length) = true := by
      rw [hrr, List.drop_left]
      decide
    have hlt : (joinTokens styled).length < r.length := by
      rw [hrr]
      simp
    exact suffixStrip_ne_of_match r _ hlt hm h0
  have hrfin : r = joinTokens styled := by rw [hr, if_neg hnorep]
  have hgood' : ∀ t ∈ styled, t ≠ [] ∧ ∀ c ∈ t, isWs c = false :=
    fun t ht => ⟨(hgood t ht).1, fun c hc => ((hgood t ht).2 c hc).1⟩
  have hchars : ∀ c ∈ r, keepChar c = true := by
    intro c hc
    rw [hrfin] at hc
    rcases mem_joinTokens_decomp c styled hc with ⟨t, ht, hct⟩ | rfl
    · exact ((hgood t ht).2 c hct).2
    · decide
  have hstrip : stripWs r = r := by
    rw [hrfin]
    exact stripWs_id _ (joinTokens_head_no_ws styled hgood')
      (joinTokens_last_no_ws styled hgood')
  have hpre : preClean r = r := by
    unfold preClean
    rw [List.filter_eq_self.mpr (fun a ha => notApos_of_keep a (hchars a ha)),
      map_keep_id _ (fun a ha => hchars a ha)]
    rw [hrfin]
    rw [collapseWs_id _ (chain'_joinTokens styled hgood')]
    rw [← hrfin]
    exact hstrip
  have hnone := suffixStart_none_of_strip_eq _ h0
  have hco : coStrip r = r := by
    unfold coStrip
    rw [coStart_none_of_suffixStart_none _ hnone]
  have hsplit : splitWs r = styled := by
    rw [hrfin]
    exact splitWs_joinTokens styled hgood'
  have hcase : caseTokens true styled = styled := by
    rw [← hstyled]
    exact caseTokens_idem (splitWs s5) true
  simp only [cleanL]
  rw [hpre, h0, hstrip, hco, ite_self, hsplit, hcase, if_neg hnorep]
  exact hrfin.symm

/-- Witness for the amended C1: `cleanL` maps `"Acme Inc"` to `"Acme"`,
which has no residual suffix, and a second run leaves it unchanged. -/
theorem c1_amended_witness :
    cleanL (cleanL ("Acme Inc").data) = cleanL ("Acme Inc").data :=
  cleanL_idem_of_suffix_free ("Acme Inc").data (by decide)

theorem lo1_eq_cases (x d : Char) (h : lo1 x = d) : x = d ∨ x = up1 d := by
  revert h
  unfold lo1
  split <;> intro h <;> first | exact Or.inl h | (subst h; decide)

theorem firstMatch_eq_some (p : Nat → Bool) :
    ∀ (fuel start i0 : Nat), start ≤ i0 → i0 < start + fuel → p i0 = true →
      (∀ j, start ≤ j → j < i0 → p j = false) →
      firstMatch p start fuel = some i0 := by
  intro fuel
  induction fuel with
  | zero => intro start i0 h1 h2 _ _; omega
  | succ f ih =>
    intro start i0 h1 h2 hp hless
    simp only [firstMatch]
    rcases Nat.eq_or_lt_of_le h1 with rfl | hlt
    · rw [if_pos hp]
    · have hs : p start = false := hless start le_rfl hlt
      rw [if_neg (by simp [hs])]
      exact ih (start + 1) i0 (Nat.succ_le_of_lt hlt) (by omega) hp
        (fun j hj1 hj2 => hless j (le_trans (Nat.le_succ start) hj1) hj2)

theorem spacedPair_no_amp (a b : Char) (ha : a ≠ '&') (hb : b ≠ '&')
    (l : List Char) (h : spacedPair a b l = true) : '&' ∉ l := by
  cases l with
  | nil => simp [spacedPair] at h
  | cons x rest =>
    simp only [spacedPair, Bool.and_eq_true, decide_eq_true_eq] at h
    obtain ⟨⟨hx, hws⟩, hlast⟩ := h
    intro hmem
    rcases List.mem_cons.mp hmem with heq | hmem'
    · exact ha (heq ▸ hx ▸ rfl)
    · have hrne : rest ≠ [] := by
        intro hc
        rw [hc] at hlast
        simp at hlast
      rw [← List.dropLast_append_getLast hrne] at hmem'
      rcases List.mem_append.mp hmem' with h' | h'
      · have := List.all_eq_true.mp hws _ h'
        simp [isWs] at this
      · have hgl : rest.getLast hrne = b := by
          have := List.getLast?_eq_getLast rest hrne
          rw [this] at hlast
          simpa using hlast
        rw [hgl] at h'
        exact hb (List.mem_singleton.mp h').symm

theorem altMatch_no_amp (core : List Char) (h : altMatch core = true) : '&' ∉ core := by
  intro hmem
  have hl : ('&' : Char) ∈ core.map lo1 := by
    have := List.mem_map_of_mem lo1 hmem
    rwa [show lo1 '&' = '&' from rfl] at this
  unfold altMatch at h
  simp only [List.elem_eq_mem, Bool.or_eq_true, decide_eq_true_eq] at h
  rcases h with ((hf | hp) | hp) | hp
  · exact (by decide : ∀ fs ∈ fixedSuffixes, ('&' : Char) ∉ fs) _ hf hl
  · exact spacedPair_no_amp 'p' 'c' (by decide) (by decide) _ hp hl
  · exact spacedPair_no_amp 'p' 'a' (by decide) (by decide) _ hp hl
  · exact spacedPair_no_amp 'm' 'd' (by decide) (by decide) _ hp hl

theorem canMatchSuffix_false_of_amp (t : List Char) (h : '&' ∈ t) :
    canMatchSuffix t = false := by
  cases hc : canMatchSuffix t with
  | false => rfl
  | true =>
    exfalso
    obtain ⟨ws, core, tr, hdec, _, hws, hcore, htr⟩ := canMatchSuffix_decomp t hc
    rw [hdec] at h
    rcases List.mem_append.mp h with h' | h'
    · rcases List.mem_append.mp h' with h'' | h''
      · have := List.all_eq_true.mp hws _ h''
        simp [isWs] at this
      · exact altMatch_no_amp core hcore h''
    · have := List.all_eq_true.mp htr _ h'
      simp [isWs] at this

theorem canMatchCo_getLast (t : List Char) (h : canMatchCo t = true) :
    t.getLast? = some 'o' ∨ t.getLast? = some 'O' ∨ t.getLast? = some '.' := by
  obtain ⟨ws, core, rfl, _, _, hco⟩ := canMatchCo_decomp t h
  have hmem : core.map lo1 ∈ coCores := by simpa [List.elem_eq_mem] using hco
  have hcne : core ≠ [] := by
    intro hc
    rw [hc] at hmem
    simp [coCores] at hmem
  have hlast : (ws ++ core).getLast? = core.getLast? := by
    rw [List.getLast?_append, Option.or_of_isSome (by
      rw [Option.isSome_iff_exists]
      cases hg : core.getLast? with
      | none => exact absurd (List.getLast?_eq_none_iff.mp hg) hcne
      | some d => exact ⟨d, rfl⟩)]
  rw [hlast]
  rcases (by simpa [coCores] using hmem : core.map lo1 = ("co").data ∨
    core.map lo1 = ("co.").data) with h' | h'
  · have hml : core.getLast?.map lo1 = some 'o' := by
      rw [← List.getLast?_map, h']
      rfl
    obtain ⟨c, hc, hlc⟩ := Option.map_eq_some'.mp hml
    rcases lo1_eq_cases c 'o' hlc with rfl | rfl
    · exact Or.inl hc
    · exact Or.inr (Or.inl hc)
  · have hml : core.getLast?.map lo1 = some '.' := by
      rw [← List.getLast?_map, h']
      rfl
    obtain ⟨c, hc, hlc⟩ := Option.map_eq_some'.mp hml
    rcases lo1_eq_cases c '.' hlc with rfl | rfl
    · exact Or.inr (Or.inr hc)
    · exact Or.inr (Or.inr hc)

theorem getLast?_drop_of_lt (l : List Char) (j : Nat) (hj : j < l.length) :
    (l.drop j).getLast? = l.getLast? := by
  have hne : l.drop j ≠ [] := by
    intro hc
    have := congrArg List.length hc
    simp at this
    omega
  conv_rhs => rw [← List.take_append_drop j l]
  rw [List.getLast?_append, Option.or_of_isSome (by
    rw [Option.isSome_iff_exists]
    cases hdl : (l.drop j).getLast? with
    | none => exact absurd (List.getLast?_eq_none_iff.mp hdl) hne
    | some d => exact ⟨d, rfl⟩)]

theorem ampCoCheck_false_of_last_amp (s4 : List Char)
    (hlast : s4.getLast? = some '&') : ampCoCheck s4 = false := by
  cases hc : ampCoCheck s4 with
  | false => rfl
  | true =>
    exfalso
    simp only [ampCoCheck, List.any_eq_true, List.mem_range, Bool.and_eq_true,
      decide_eq_true_eq] at hc
    obtain ⟨i, _, _, hco⟩ := hc
    have hlen : i + 1 < s4.length := by
      by_contra hge
      rw [List.drop_eq_nil_of_le (by omega), canMatchCo_nil] at hco
      cases hco
    have h1 := canMatchCo_getLast _ hco
    rw [getLast?_drop_of_lt s4 (i + 1) hlen, hlast] at h1
    rcases h1 with h | h | h <;> simp at h

theorem coStart_none_of_last_amp (s4 : List Char)
    (hlast : s4.getLast? = some '&') : coStart s4 = none := by
  cases hc : coStart s4 with
  | none => rfl
  | some i =>
    exfalso
    obtain ⟨hp, _, _⟩ := firstMatch_some_spec _ _ _ _ hc
    have hlen : i < s4.length := by
      by_contra hge
      rw [List.drop_eq_nil_of_le (by omega), canMatchCo_nil] at hp
      cases hp
    have h1 := canMatchCo_getLast _ hp
    rw [getLast?_drop_of_lt s4 i hlen, hlast] at h1
    rcases h1 with h | h | h <;> simp at h

theorem dropWhile_append_pos (p : Char → Bool) (a b : List Char)
    (h : a.dropWhile p ≠ []) : (a ++ b).dropWhile p = a.dropWhile p ++ b := by
  rw [List.dropWhile_append, if_neg (by simpa [List.isEmpty_iff] using h)]

theorem dropWhile_append_neg (p : Char → Bool) (a b : List Char)
    (h : a.dropWhile p = []) : (a ++ b).dropWhile p = b.dropWhile p := by
  rw [List.dropWhile_append, if_pos (by simpa [List.isEmpty_iff] using h)]

theorem dropWhile_head_false (p : Char → Bool) (l : List Char) (c : Char)
    (h : (l.dropWhile p).head? = some c) : p c = false := by
  induction l with
  | nil => simp [List.dropWhile] at h
  | cons a t ih =>
    rw [List.dropWhile_cons] at h
    by_cases hp : p a = true
    · rw [if_pos hp] at h
      exact ih h
    · rw [if_neg hp] at h
      obtain rfl : a = c := by simpa using h
      simpa using hp

theorem dropWhile_id_of_headIsWs_false (v : List Char) (h : headIsWs v = false) :
    v.dropWhile isWs = v := by
  cases v with
  | nil => rfl
  | cons d rest =>
    rw [List.dropWhile_cons, if_neg (by simp [show isWs d = false from h])]

theorem collapse_append_sep (v : List Char) (hv : collapseWs v = v)
    (hvh : headIsWs v = false) :
    ∀ (n : Nat) (u : List Char), u.length ≤ n →
      ∃ w, collapseWs (u ++ ' ' :: v) = w ++ ' ' :: v := by
  intro n
  induction n with
  | zero =>
    intro u hu
    obtain rfl : u = [] := List.length_eq_zero.mp (Nat.le_zero.mp hu)
    refine ⟨[], ?_⟩
    rw [List.nil_append, collapseWs_cons, if_pos (by decide),
      show headIsWs v = false from hvh]
    simp only [Bool.false_eq_true, if_false]
    rw [hv]
  | succ n ih =>
    intro u hu
    cases u with
    | nil => exact ih [] (by simp)
    | cons c u' =>
      simp only [List.length_cons, Nat.succ_le_succ_iff] at hu
      rw [List.cons_append, collapseWs_cons]
      by_cases hc : isWs c = true
      · rw [if_pos hc]
        cases u' with
        | nil =>
          rw [show headIsWs ([] ++ ' ' :: v) = true from rfl]
          simp only [if_true, List.nil_append]
          rw [show (' ' :: v).dropWhile isWs = v.dropWhile isWs from by
              rw [List.dropWhile_cons, if_pos (by decide)],
            dropWhile_id_of_headIsWs_false v hvh, hv]
          exact ⟨[], rfl⟩
        | cons d u'' =>
          by_cases hd : isWs d = true
          · rw [show headIsWs ((d :: u'') ++ ' ' :: v) = isWs d from rfl, if_pos hd]
            rw [show ((d :: u'') ++ ' ' :: v).dropWhile isWs =
                (u'' ++ ' ' :: v).dropWhile isWs from by
              rw [List.cons_append, List.dropWhile_cons, if_pos hd]]
            by_cases he : u''.dropWhile isWs = []
            · rw [dropWhile_append_neg _ _ _ he,
                show (' ' :: v).dropWhile isWs = v.dropWhile isWs from by
                  rw [List.dropWhile_cons, if_pos (by decide)],
                dropWhile_id_of_headIsWs_false v hvh, hv]
              exact ⟨[], rfl⟩
            · rw [dropWhile_append_pos _ _ _ he]
              obtain ⟨w', hw'⟩ := ih (u''.dropWhile isWs)
                (by
                  have := dropWhile_length_le isWs u''
                  simp only [List.length_cons] at hu
                  omega)
              rw [hw']
              exact ⟨' ' :: w', rfl⟩
          · rw [show headIsWs ((d :: u'') ++ ' ' :: v) = isWs d from rfl,
              if_neg (by simp [hd])]
            obtain ⟨w', hw'⟩ := ih (d :: u'')
              (by simp only [List.length_cons] at hu ⊢; omega)
            rw [hw']
            exact ⟨c :: w', rfl⟩
      · rw [if_neg hc]
        obtain ⟨w', hw'⟩ := ih u' hu
        rw [hw']
        exact ⟨c :: w', rfl⟩

theorem takeWhile_sep (a b : List Char) :
    (a ++ ' ' :: b).takeWhile (fun d => !isWs d) = a.takeWhile (fun d => !isWs d) := by
  induction a with
  | nil => simp [List.takeWhile_cons, isWs]
  | cons e a' ih =>
    rw [List.cons_append, List.takeWhile_cons, List.takeWhile_cons]
    by_cases he : (!isWs e) = true
    · rw [if_pos he, if_pos he, ih]
    · rw [if_neg he, if_neg he]

theorem dropWhile_sep (a b : List Char) :
    (a ++ ' ' :: b).dropWhile (fun d => !isWs d) =
      a.dropWhile (fun d => !isWs d) ++ ' ' :: b := by
  induction a with
  | nil => simp [List.dropWhile_cons, isWs]
  | cons e a' ih =>
    rw [List.cons_append, List.dropWhile_cons, List.dropWhile_cons]
    by_cases he : (!isWs e) = true
    · rw [if_pos he, if_pos he, ih]
    · rw [if_neg he, if_neg he, List.cons_append]

theorem splitWs_append_sep :
    ∀ (n : Nat) (a : List Char), a.length ≤ n →
      ∀ b, splitWs (a ++ ' ' :: b) = splitWs a ++ splitWs b := by
  intro n
  induction n with
  | zero =>
    intro a ha b
    obtain rfl : a = [] := List.length_eq_zero.mp (Nat.le_zero.mp ha)
    rw [List.nil_append, splitWs_cons, if_pos (by decide), splitWs_nil, List.nil_append]
  | succ n ih =>
    intro a ha b
    cases a with
    | nil => exact ih [] (by simp) b
    | cons c a' =>
      simp only [List.length_cons, Nat.succ_le_succ_iff] at ha
      rw [List.cons_append, splitWs_cons, splitWs_cons]
      by_cases hc : isWs c = true
      · rw [if_pos hc, if_pos hc, ih a' ha b]
      · rw [if_neg hc, if_neg hc, takeWhile_sep a' b, dropWhile_sep a' b]
        rw [ih (a'.dropWhile (fun d => !isWs d))
          (le_trans (dropWhile_length_le _ a') ha) b]
        rw [List.cons_append]

theorem splitWs_cons_ne_nil (c : Char) (cs : List Char) (hc : isWs c = false) :
    splitWs (c :: cs) ≠ [] := by
  rw [splitWs_cons, if_neg (by simp [hc])]
  simp

theorem caseTokens_ne_nil (f : Bool) (t : List Char) (ts : List (List Char)) :
    caseTokens f (t :: ts) ≠ [] := by
  simp [caseTokens]

theorem caseTokens_append_single (t : List Char) :
    ∀ (ts : List (List Char)) (f : Bool), ts ≠ [] →
      caseTokens f (ts ++ [t]) = caseTokens f ts ++ [smartCase t false] := by
  intro ts
  induction ts with
  | nil => intro f h; exact absurd rfl h
  | cons u ts' ih =>
    intro f _
    cases ts' with
    | nil => rfl
    | cons v ts'' =>
      have h1 : caseTokens f ((u :: v :: ts'') ++ [t]) =
          smartCase u f :: caseTokens false ((v :: ts'') ++ [t]) := rfl
      rw [h1, ih false (by simp)]
      rfl

/-- Claim C8, amended: the trailing-`Co` retention only works when the
ampersand is a whitespace-isolated token. For every input that ends in the
five characters `" & Co"` (whitespace before the ampersand), the cleaned
output either is exactly `"& Co"` or still ends in `" & Co"`: the
`&\s+co\.?$` guard skips the co-removal step, suffix stripping leaves the
string ending in `" &"`, and the repair at line 89 re-appends `Co`. (The
counterexample shows the repair does not fire when the ampersand is glued
to a preceding token, so the unamended claim "every input ending in `& Co`"
is false.) -/
theorem c8_amended_amp_token (p : List Char) :
    cleanL (p ++ [' ', '&', ' ', 'C', 'o']) = ['&', ' ', 'C', 'o'] ∨
      ∃ q, cleanL (p ++ [' ', '&', ' ', 'C', 'o']) = q ++ [' ', '&', ' ', 'C', 'o'] := by
  have hfil : (p ++ [' ', '&', ' ', 'C', 'o']).filter notApos =
      p.filter notApos ++ [' ', '&', ' ', 'C', 'o'] := by
    rw [List.filter_append]
    rfl
  obtain ⟨u, hu⟩ : ∃ u, (p.filter notApos).map (fun c => if keepChar c then c else ' ') = u :=
    ⟨_, rfl⟩
  have hmap : ((p.filter notApos) ++ [' ', '&', ' ', 'C', 'o']).map
      (fun c => if keepChar c then c else ' ') = u ++ [' ', '&', ' ', 'C', 'o'] := by
    rw [List.map_append, hu]
    rfl
  obtain ⟨w, hw⟩ := collapse_append_sep ['&', ' ', 'C', 'o'] (by decide) (by decide)
    u.length u le_rfl
  have hpre0 : preClean (p ++ [' ', '&', ' ', 'C', 'o']) =
      stripWs (w ++ ' ' :: ['&', ' ', 'C', 'o']) := by
    unfold preClean
    rw [hfil, hmap, hw]
  by_cases he : w.dropWhile isWs = []
  · left
    have hpre : preClean (p ++ [' ', '&', ' ', 'C', 'o']) = ['&', ' ', 'C', 'o'] := by
      rw [hpre0]
      unfold stripWs
      rw [dropWhile_append_neg isWs w (' ' :: ['&', ' ', 'C', 'o']) he]
      decide
    simp only [cleanL]
    rw [hpre]
    decide
  · obtain ⟨e, w1rest, hwe⟩ : ∃ e rest, w.dropWhile isWs = e :: rest := by
      cases hwd : w.dropWhile isWs with
      | nil => exact absurd hwd he
      | cons e rest => exact ⟨e, rest, rfl⟩
    have hehead : isWs e = false := dropWhile_head_false isWs w e (by rw [hwe]; rfl)
    have hpre : preClean (p ++ [' ', '&', ' ', 'C', 'o']) =
        (e :: w1rest) ++ ' ' :: ['&', ' ', 'C', 'o'] := by
      rw [hpre0]
      have hdw : (w ++ ' ' :: ['&', ' ', 'C', 'o']).dropWhile isWs =
          (e :: w1rest) ++ ' ' :: ['&', ' ', 'C', 'o'] := by
        rw [dropWhile_append_pos isWs w (' ' :: ['&', ' ', 'C', 'o']) (by rw [hwe]; simp), hwe]
      have hXdw : ((e :: w1rest) ++ ' ' :: ['&', ' ', 'C', 'o']).dropWhile isWs =
          (e :: w1rest) ++ ' ' :: ['&', ' ', 'C', 'o'] := by
        apply dropWhile_id_of_head
        intro c hc
        rw [List.cons_append, List.head?_cons] at hc
        exact (Option.some.inj hc) ▸ hehead
      have hid : stripWs ((e :: w1rest) ++ ' ' :: ['&', ' ', 'C', 'o']) =
          (e :: w1rest) ++ ' ' :: ['&', ' ', 'C', 'o'] := by
        apply stripWs_id
        · intro c hc
          rw [List.cons_append, List.head?_cons] at hc
          exact (Option.some.inj hc) ▸ hehead
        · intro c hc
          rw [show (e :: w1rest) ++ ' ' :: ['&', ' ', 'C', 'o'] =
              ((e :: w1rest) ++ [' ', '&', ' ', 'C']) ++ ['o'] from by simp,
            List.getLast?_concat] at hc
          rw [← Option.some.inj hc]
          decide
      unfold stripWs
      rw [hdw]
      unfold stripWs at hid
      rw [hXdw] at hid
      exact hid
    have hsufstart : suffixStart ((e :: w1rest) ++ ' ' :: ['&', ' ', 'C', 'o']) =
        some ((e :: w1rest).length + 2) := by
      unfold suffixStart
      apply firstMatch_eq_some
      · exact Nat.zero_le _
      · simp only [List.length_append, List.length_cons, List.length_nil]
        omega
      · show canMatchSuffix (((e :: w1rest) ++ ' ' :: ['&', ' ', 'C', 'o']).drop
          ((e :: w1rest).length + 2)) = true
        rw [List.drop_append]
        decide
      · intro j hj0 hj
        show canMatchSuffix (((e :: w1rest) ++ ' ' :: ['&', ' ', 'C', 'o']).drop j) = false
        apply canMatchSuffix_false_of_amp
        by_cases hjle : j ≤ (e :: w1rest).length
        · rw [List.drop_append_of_le_length hjle]
          exact List.mem_append.mpr (Or.inr (by decide))
        · obtain rfl : j = (e :: w1rest).length + 1 := by omega
          rw [List.drop_append]
          decide
    have hsufstrip : suffixStrip ((e :: w1rest) ++ ' ' :: ['&', ' ', 'C', 'o']) =
        (e :: w1rest) ++ [' ', '&'] := by
      unfold suffixStrip
      rw [hsufstart]
      show ((e :: w1rest) ++ ' ' :: ['&', ' ', 'C', 'o']).take ((e :: w1rest).length + 2) =
        (e :: w1rest) ++ [' ', '&']
      rw [List.take_append]
      rfl
    have hstrip4 : stripWs ((e :: w1rest) ++ [' ', '&']) = (e :: w1rest) ++ [' ', '&'] := by
      apply stripWs_id
      · intro c hc
        rw [List.cons_append, List.head?_cons] at hc
        exact (Option.some.inj hc) ▸ hehead
      · intro c hc
        rw [show (e :: w1rest) ++ [' ', '&'] = ((e :: w1rest) ++ [' ']) ++ ['&'] from by simp,
          List.getLast?_concat] at hc
        rw [← Option.some.inj hc]
        decide
    have hlast4 : ((e :: w1rest) ++ [' ', '&']).getLast? = some '&' := by
      rw [show (e :: w1rest) ++ [' ', '&'] = ((e :: w1rest) ++ [' ']) ++ ['&'] from by simp,
        List.getLast?_concat]
    have hamp : ampCoCheck ((e :: w1rest) ++ [' ', '&']) = false :=
      ampCoCheck_false_of_last_amp _ hlast4
    have hco : coStrip ((e :: w1rest) ++ [' ', '&']) = (e :: w1rest) ++ [' ', '&'] := by
      unfold coStrip
      rw [coStart_none_of_last_amp _ hlast4]
    have hsplit : splitWs ((e :: w1rest) ++ [' ', '&']) =
        splitWs (e :: w1rest) ++ [['&']] := by
      rw [splitWs_append_sep (e :: w1rest).length (e :: w1rest) le_rfl ['&']]
      rfl
    have hcasetk : caseTokens true (splitWs (e :: w1rest) ++ [['&']]) =
        caseTokens true (splitWs (e :: w1rest)) ++ [['&']] := by
      rw [caseTokens_append_single ['&'] (splitWs (e :: w1rest)) true
        (splitWs_cons_ne_nil e w1rest hehead)]
      rw [show smartCase ['&'] false = ['&'] from by decide]
    obtain ⟨tk, tks, htk⟩ : ∃ tk tks, splitWs (e :: w1rest) = tk :: tks := by
      cases hsp : splitWs (e :: w1rest) with
      | nil => exact absurd hsp (splitWs_cons_ne_nil e w1rest hehead)
      | cons tk tks => exact ⟨tk, tks, rfl⟩
    have hXne : caseTokens true (splitWs (e :: w1rest)) ≠ [] := by
      rw [htk]
      exact caseTokens_ne_nil true tk tks
    have hlastst : (caseTokens true (splitWs (e :: w1rest)) ++ [['&']]).getLast? =
        some ['&'] := List.getLast?_concat _
    refine Or.inr ⟨joinTokens (caseTokens true (splitWs (e :: w1rest))), ?_⟩
    simp only [cleanL]
    rw [hpre, hsufstrip, hstrip4,
      if_neg (show ¬ (ampCoCheck ((e :: w1rest) ++ [' ', '&']) = true) from by
        rw [hamp]; simp),
      hco, hsplit, hcasetk, if_pos hlastst]
    rw [joinTokens_append_single (caseTokens true (splitWs (e :: w1rest)) ++ [['&']])
      (['C', 'o']) (by simp),
      joinTokens_append_single (caseTokens true (splitWs (e :: w1rest))) (['&']) hXne,
      List.append_assoc]
    rfl
